import Mathlib

/-!
Verification development for the flashcard-generator frontend core:
the `Q:`/`A:` tokenizer with deduplication (`src/lib/flashcards.ts`) and
the dependency-free PDF encoder (`FlashcardStudyPanel.tsx`).

JavaScript strings are modelled as `List Char`; all characters the encoder
emits are proved to lie below code point 128, so list positions coincide
with both UTF-16 positions and UTF-8 (TextEncoder) byte positions.
-/

namespace FlashcardApp

/-- Shorthand turning a Lean string literal into the `List Char` model. -/
def s2l (s : String) : List Char := s.data

/-- Character class of the JavaScript `\s` regex class, which is also the
set removed by `String.prototype.trim`. -/
def isWsChar (c : Char) : Bool :=
  let n := c.toNat
  n = 9 || n = 10 || n = 11 || n = 12 || n = 13 || n = 32 ||
  n = 160 || n = 0x1680 || (0x2000 ≤ n && n ≤ 0x200a) ||
  n = 0x2028 || n = 0x2029 || n = 0x202f || n = 0x205f ||
  n = 0x3000 || n = 0xfeff

/-- Line terminators, the characters the JavaScript regex `.` does not match
(outside dot-all mode). -/
def isLineTerm (c : Char) : Bool :=
  let n := c.toNat
  n = 10 || n = 13 || n = 0x2028 || n = 0x2029

/-- Decimal digit class `\d`. -/
def isDigit (c : Char) : Bool := 48 ≤ c.toNat && c.toNat ≤ 57

/-- ASCII-range upper-casing used to model case-insensitive (`/i`) regex
matching of ASCII pattern characters; under the ECMAScript canonicalization
rules a non-ASCII input character never matches an ASCII pattern character. -/
def upNat (c : Char) : Nat :=
  if 97 ≤ c.toNat ∧ c.toNat ≤ 122 then c.toNat - 32 else c.toNat

/-- ASCII-range lower-casing, modelling `toLowerCase` on the characters the
application feeds it. -/
def lowerChar (c : Char) : Char :=
  if 65 ≤ c.toNat ∧ c.toNat ≤ 90 then Char.ofNat (c.toNat + 32) else c

/-- Model of `value.trimStart()` / the leading half of `trim`. -/
def trimLeft (s : List Char) : List Char := s.dropWhile isWsChar

/-- Model of `value.trimEnd()` / the trailing half of `trim`. -/
def trimRight (s : List Char) : List Char :=
  (s.reverse.dropWhile isWsChar).reverse

/-- Model of `String.prototype.trim`. -/
def trim (s : List Char) : List Char := trimLeft (trimRight s)

/-- Model of `String.prototype.split` with a single-character separator. -/
def splitCh (sep : Char) : List Char → List (List Char)
  | [] => [[]]
  | c :: rest =>
    if c = sep then [] :: splitCh sep rest
    else
      match splitCh sep rest with
      | [] => [[c]]
      | l :: ls => (c :: l) :: ls

/-- Model of `Array.prototype.join` with a separator string. -/
def joinSep (sep : List Char) : List (List Char) → List Char
  | [] => []
  | [x] => x
  | x :: xs => x ++ sep ++ joinSep sep xs

/-- Concatenation of a list of lists (`join("")` / array flattening). -/
def concatAll {α : Type} : List (List α) → List α
  | [] => []
  | x :: xs => x ++ concatAll xs

/-- Model of `raw.replace(/\r\n?/g, "\n")`: every CRLF pair and every lone CR
becomes a single LF. -/
def normNewlines : List Char → List Char
  | [] => []
  | '\r' :: '\n' :: rest => '\n' :: normNewlines rest
  | '\r' :: rest => '\n' :: normNewlines rest
  | c :: rest => c :: normNewlines rest

/-- One attempted match of `\s*\d+\.\s*` at a line-start position, for
`raw.replace(/^\s*\d+\.\s*/gm, "")`.  The classes `\s` and `\d` are disjoint
and neither contains `.`, so greedy matching needs no backtracking.  Returns
the remainder after the removed match together with whether the match's final
character is a line terminator (LF, CR, U+2028 or U+2029, the characters
after which the multiline `^` asserts), which decides whether the scan
resumes at a line-start position. -/
def tryOrdinal (s : List Char) : Option (List Char × Bool) :=
  if ((s.dropWhile isWsChar).takeWhile isDigit) = [] then none
  else
    match (s.dropWhile isWsChar).dropWhile isDigit with
    | '.' :: r3 =>
      some (r3.dropWhile isWsChar,
        match (r3.takeWhile isWsChar).getLast? with
        | some c => isLineTerm c
        | none => false)
    | _ => none

/-- Scan of the global, multi-line replacement `replace(/^\s*\d+\.\s*/gm, "")`:
positions are tried left to right, the anchor `^` holds at offset 0 and right
after any line terminator (LF, CR, U+2028, U+2029), and after a removed match
the scan resumes right after it. -/
def stripGo : Nat → List Char → Bool → List Char
  | _, [], _ => []
  | 0, s, _ => s
  | fuel + 1, c :: rest, atStart =>
    if atStart then
      match tryOrdinal (c :: rest) with
      | some (rem, nl) => stripGo fuel rem nl
      | none => c :: stripGo fuel rest (isLineTerm c)
    else c :: stripGo fuel rest (isLineTerm c)

/-- Model of `raw.replace(/^\s*\d+\.\s*/gm, "")`.  The fuel starts at the
input's length; every step of the scan removes at least one character
(a removed ordinal match `\s*\d+\.\s*` spans at least two characters, and a
skipped character is exactly one), so the fuel cutoff is never reached. -/
def stripOrdinals (s : List Char) : List Char := stripGo s.length s true

/-- `ParsedFlashcard` from `src/lib/flashcards.ts`. -/
structure ParsedFlashcard where
  question : List Char
  answer : List Char
deriving DecidableEq

/-- `Flashcard` from `src/lib/flashcards.ts`. -/
structure Flashcard where
  id : List Char
  question : List Char
  answer : List Char
  learned : Bool
deriving DecidableEq

/-- `FlashcardSet` from `src/lib/flashcards.ts`. -/
structure FlashcardSet where
  id : List Char
  name : List Char
  importedAt : List Char
  cards : List Flashcard
deriving DecidableEq

/-- Case-insensitive match of an ASCII keyword against the front of a line,
returning the remainder. -/
def stripCI : List Char → List Char → Option (List Char)
  | [], s => some s
  | _ :: _, [] => none
  | p :: ps, c :: cs => if upNat c = upNat p then stripCI ps cs else none

/-- After the keyword, the regexes require `\s*` then a literal colon,
returning what follows the colon. -/
def afterColon (rest : List Char) : Option (List Char) :=
  match rest.dropWhile isWsChar with
  | ':' :: r => some r
  | _ => none

/-- Capture of `\s*(.+)$` on the text after the colon: greedy whitespace
skipping, then at least one character, none of which may be a line
terminator; if everything is whitespace the engine backtracks one character,
which then must not be a line terminator. -/
def capturePlus (r : List Char) : Option (List Char) :=
  match r.dropWhile isWsChar with
  | c :: cs =>
    if (c :: cs).all (fun ch => !(isLineTerm ch)) then some (c :: cs) else none
  | [] =>
    match r.getLast? with
    | none => none
    | some last => if isLineTerm last then none else some [last]

/-- Capture of `\s*(.*)$` on the text after the colon. -/
def captureStar (r : List Char) : Option (List Char) :=
  if (r.dropWhile isWsChar).all (fun ch => !(isLineTerm ch)) then
    some (r.dropWhile isWsChar)
  else none

/-- Keyword-plus-colon front end shared by both marker regexes. -/
def matchKeyword (kw : String) (t : List Char) : Option (List Char) :=
  match stripCI (s2l kw) t with
  | none => none
  | some rest => afterColon rest

/-- Model of `trimmed.match(/^(?:Q|Question)\s*:\s*(.+)$/i)`, returning the
capture group; the `Q` alternative is tried before `Question`. -/
def questionMatch (t : List Char) : Option (List Char) :=
  match (matchKeyword "Q" t).bind capturePlus with
  | some cap => some cap
  | none => (matchKeyword "Question" t).bind capturePlus

/-- Model of `trimmed.match(/^(?:A|Answer)\s*:\s*(.*)$/i)`, returning the
capture group; the `A` alternative is tried before `Answer`. -/
def answerMatch (t : List Char) : Option (List Char) :=
  match (matchKeyword "A" t).bind captureStar with
  | some cap => some cap
  | none => (matchKeyword "Answer" t).bind captureStar

/-- `commitCard` from `parseFlashcards`: a pending card is kept only when the
current question is truthy, the answer buffer is non-empty, and both trimmed
texts are non-empty. -/
def commitCard (cq : Option (List Char)) (ca : List (List Char)) :
    List ParsedFlashcard :=
  match cq with
  | none => []
  | some q0 =>
    if q0 = [] ∨ ca = [] then []
    else
      let question := trim q0
      let answer := trim (joinSep (s2l "\n") ca)
      if question ≠ [] ∧ answer ≠ [] then [⟨question, answer⟩] else []

/-- The `for (const line of lines)` state machine of `parseFlashcards`,
with the pending question, the answer buffer, and the `answerStarted` flag. -/
def stepLines : List (List Char) → Option (List Char) → List (List Char) →
    Bool → List ParsedFlashcard
  | [], cq, ca, _ => commitCard cq ca
  | line :: rest, cq, ca, started =>
    let t := trim line
    match questionMatch t with
    | some qcap => commitCard cq ca ++ stepLines rest (some qcap) [] false
    | none =>
      match answerMatch t with
      | some acap =>
        if cq ≠ none ∧ cq ≠ some [] then stepLines rest cq [acap] true
        else if started then stepLines rest cq (ca ++ [t]) started
        else stepLines rest cq ca started
      | none =>
        if started then stepLines rest cq (ca ++ [t]) started
        else stepLines rest cq ca started

/-- `parseFlashcards` from `src/lib/flashcards.ts`. -/
def parseFlashcards (raw : List Char) : List ParsedFlashcard :=
  if raw = [] then []
  else
    let sanitized := trim (stripOrdinals (normNewlines raw))
    stepLines (splitCh '\n' sanitized) none [] false

/-- `canonicalKey` from `src/lib/flashcards.ts`:
`trim().toLowerCase()` of both fields joined by a double colon. -/
def canonicalKey (q a : List Char) : List Char :=
  (trim q).map lowerChar ++ s2l "::" ++ (trim a).map lowerChar

/-- Loop body of `buildFlashcardsFromParsed`.  `createId()` draws a fresh
random identifier per emitted card; the ambient supply of identifiers is
modelled by `ids`, indexed by how many cards were emitted so far. -/
def buildGo (ids : Nat → List Char) (seen : List (List Char)) (k : Nat) :
    List ParsedFlashcard → List Flashcard
  | [] => []
  | item :: rest =>
    let question := trim item.question
    let answer := trim item.answer
    if question = [] ∨ answer = [] then buildGo ids seen k rest
    else
      let key := canonicalKey question answer
      if key ∈ seen then buildGo ids seen k rest
      else ⟨ids k, question, answer, false⟩ :: buildGo ids (key :: seen) (k + 1) rest

/-- `buildFlashcardsFromParsed` from `src/lib/flashcards.ts`, parameterised by
the ambient identifier supply consumed by `createId()`. -/
def buildFlashcardsFromParsed (ids : Nat → List Char)
    (parsed : List ParsedFlashcard) : List Flashcard :=
  buildGo ids [] 0 parsed

/-- The question/answer content of an emitted card. -/
def cardQA (c : Flashcard) : List Char × List Char := (c.question, c.answer)

/-- The full observable content of an emitted card apart from its random id. -/
def cardQAL (c : Flashcard) : List Char × List Char × Bool :=
  (c.question, c.answer, c.learned)

/-- Reading an emitted card back as a parsed record (used to restate
idempotence of the dedup step). -/
def asParsed (c : Flashcard) : ParsedFlashcard := ⟨c.question, c.answer⟩

/-- Trimmed projection of a parsed record. -/
def trimPair (p : ParsedFlashcard) : ParsedFlashcard :=
  ⟨trim p.question, trim p.answer⟩

/-- Records that survive the empty-after-trim filter of the dedup step. -/
def okPair (p : ParsedFlashcard) : Bool :=
  !(trim p.question).isEmpty && !(trim p.answer).isEmpty

/-- Modelled from the spec: "Deduplication: iterate committed records in
order, compute CanonicalKey, keep the first record per key, drop later ones."
This is the spec-side description that `buildFlashcardsFromParsed` is compared
against. -/
def dedupeSpecFirstWins (seen : List (List Char)) :
    List ParsedFlashcard → List ParsedFlashcard
  | [] => []
  | r :: rest =>
    let key := canonicalKey r.question r.answer
    if key ∈ seen then dedupeSpecFirstWins seen rest
    else r :: dedupeSpecFirstWins (key :: seen) rest

/-! ### The PDF encoder (`FlashcardStudyPanel.tsx`) -/

/-- `PDF_MAX_LINE_CHARS` from the source. -/
def PDF_MAX_LINE_CHARS : Nat := 90

/-- `Math.floor((PDF_PAGE_HEIGHT - PDF_MARGIN_TOP - PDF_MARGIN_BOTTOM) / PDF_LINE_HEIGHT)`
with the source's double constants `841.89`, `72`, `72`, `18`; the quotient is
`38.7716...`, so the floor is 38 (and `Math.max(1, 38) = 38`). -/
def PDF_LINES_PER_PAGE : Nat := 38

/-- Scan of `value.replace(/\s+/g, " ")`: every maximal run of whitespace
becomes one space.  `inRun` records whether the previous character belonged
to the current whitespace run (whose first character already emitted the
replacement space). -/
def collapseGo : Bool → List Char → List Char
  | _, [] => []
  | inRun, c :: rest =>
    if isWsChar c then
      if inRun then collapseGo true rest else ' ' :: collapseGo true rest
    else c :: collapseGo false rest

/-- Model of `value.replace(/\s+/g, " ")`. -/
def collapseWs (value : List Char) : List Char := collapseGo false value

/-- Per-character step of `sanitizeTextValue`: characters outside the
printable ASCII range 32..126 become `?`. -/
def toPrintable (c : Char) : Char :=
  if 32 ≤ c.toNat ∧ c.toNat ≤ 126 then c else '?'

/-- `sanitizeTextValue` from the source: collapse whitespace runs to single
spaces, replace non printable-ASCII characters by `?`, then trim. -/
def sanitizeTextValue (value : List Char) : List Char :=
  trim ((collapseWs value).map toPrintable)

/-- Chunking loop of `breakWordIntoSegments`, structured on iteration fuel. -/
def breakGo : Nat → List Char → Nat → List (List Char)
  | 0, w, _ => [w]
  | fuel + 1, w, m =>
    if w.length ≤ m then [w] else w.take m :: breakGo fuel (w.drop m) m

/-- `breakWordIntoSegments` from the source: hard-split an overlong word into
chunks of `maxChars` characters.  Every call site passes `maxChars ≥ 1` (the
JS loop would not terminate on 0), so `word.length` steps always suffice. -/
def breakWordIntoSegments (word : List Char) (maxChars : Nat) : List (List Char) :=
  breakGo word.length word maxChars

/-- The `for (const word of words)` loop of `segmentSanitizedText`, carrying
the accumulated `lines` and the open `current` line. -/
def segGo (maxChars : Nat) (lines : List (List Char)) (current : List Char) :
    List (List Char) → List (List Char)
  | [] => if current ≠ [] then lines ++ [current] else lines
  | word :: ws =>
    if word = [] then segGo maxChars lines current ws
    else if current = [] then
      if word.length ≤ maxChars then segGo maxChars lines word ws
      else
        let segments := breakWordIntoSegments word maxChars
        let lastSegment := (segments.getLast?).getD []
        if lastSegment.length = maxChars then
          segGo maxChars (lines ++ segments.dropLast ++ [lastSegment]) [] ws
        else segGo maxChars (lines ++ segments.dropLast) lastSegment ws
    else if current.length + 1 + word.length ≤ maxChars then
      segGo maxChars lines (current ++ ' ' :: word) ws
    else
      if word.length ≤ maxChars then segGo maxChars (lines ++ [current]) word ws
      else
        let segments := breakWordIntoSegments word maxChars
        let lastSegment := (segments.getLast?).getD []
        if lastSegment.length = maxChars then
          segGo maxChars (lines ++ [current] ++ segments.dropLast ++ [lastSegment]) [] ws
        else segGo maxChars (lines ++ [current] ++ segments.dropLast) lastSegment ws

/-- `segmentSanitizedText` from the source. -/
def segmentSanitizedText (sanitized : List Char) (maxChars : Nat) :
    List (List Char) :=
  if sanitized = [] then [] else segGo maxChars [] [] (splitCh ' ' sanitized)

/-- `wrapLongLine` from the source (the default argument is
`PDF_MAX_LINE_CHARS`). -/
def wrapLongLine (value : List Char) (maxChars : Nat) : List (List Char) :=
  let sanitized := sanitizeTextValue value
  if sanitized = [] then [[]] else segmentSanitizedText sanitized maxChars

/-- `wrapWithPrefix` from the source: the first wrapped line carries the
label `pre`, continuation lines are indented by `pre.length` spaces, and the
per-segment budget is `max(1, maxChars - pre.length)`. -/
def wrapWithPrefix (value pre : List Char) (maxChars : Nat) : List (List Char) :=
  let sanitized := sanitizeTextValue value
  let available := max 1 (maxChars - pre.length)
  if sanitized = [] then [trimRight pre]
  else
    match segmentSanitizedText sanitized available with
    | [] => []
    | seg :: rest =>
      (pre ++ seg) :: rest.map (fun s => List.replicate pre.length ' ' ++ s)

/-- Per-character step of `escapePdfText`. -/
def escapePdfChar (c : Char) : List Char :=
  if c = '\\' then ['\\', '\\']
  else if c = '(' then ['\\', '(']
  else if c = ')' then ['\\', ')']
  else [c]

/-- `escapePdfText` from the source: backslash-escape `\`, `(` and `)`.
The three sequential `replace` calls never rewrite a character introduced by
an earlier one, so they amount to this single character-wise pass. -/
def escapePdfText (value : List Char) : List Char :=
  concatAll (value.map escapePdfChar)

/-- The pagination loop of `createFlashcardsPdfBlob`: when the current page
is full it is flushed before the next line is placed. -/
def pagGo {α : Type} (maxLinesPerPage : Nat) (currentPage : List α) :
    List α → List (List α)
  | [] => if currentPage.length > 0 then [currentPage] else []
  | line :: rest =>
    if currentPage.length ≥ maxLinesPerPage then
      currentPage :: pagGo maxLinesPerPage [line] rest
    else pagGo maxLinesPerPage (currentPage ++ [line]) rest

/-- Slicing a line list into pages of at most `maxLinesPerPage` lines. -/
def paginate {α : Type} (maxLinesPerPage : Nat) (contentLines : List α) :
    List (List α) :=
  pagGo maxLinesPerPage [] contentLines

/-- Decimal digit character. -/
def digitChar (n : Nat) : Char := Char.ofNat (48 + n)

/-- Digit-extraction loop for decimal rendering, structured on iteration
fuel; `n` steps always suffice since the argument shrinks tenfold each step. -/
def natToCharsGo : Nat → Nat → List Char
  | 0, n => [digitChar (n % 10)]
  | fuel + 1, n =>
    if n < 10 then [digitChar n]
    else natToCharsGo fuel (n / 10) ++ [digitChar (n % 10)]

/-- Decimal rendering of a natural number, as JS template interpolation
produces for the integers interpolated by the encoder. -/
def natToChars (n : Nat) : List Char := natToCharsGo n n

/-- Model of `String.prototype.padStart(width, c)`. -/
def padStart (width : Nat) (c : Char) (s : List Char) : List Char :=
  List.replicate (width - s.length) c ++ s

/-- One `{ id, content }` object record of the encoder. -/
structure PdfObj where
  id : Nat
  content : List Char
deriving DecidableEq

/-- The `set.cards.forEach` loop building the "Card N" / question / answer
lines, with a blank separator after every card but the last. -/
def cardLines (total : Nat) : Nat → List Flashcard → List (List Char)
  | _, [] => []
  | index, card :: rest =>
    wrapLongLine (s2l "Card " ++ natToChars (index + 1)) PDF_MAX_LINE_CHARS ++
    wrapWithPrefix card.question (s2l "Q: ") PDF_MAX_LINE_CHARS ++
    wrapWithPrefix card.answer (s2l "A: ") PDF_MAX_LINE_CHARS ++
    (if index < total - 1 then [([] : List Char)] else []) ++
    cardLines total (index + 1) rest

/-- `headerTitle` of the encoder; `set.name || "Imported Set"` reads the
fallback on the empty (falsy) string. -/
def headerTitleFor (set : FlashcardSet) : List Char :=
  s2l "Flashcards for " ++
  sanitizeTextValue (if set.name = [] then s2l "Imported Set" else set.name)

/-- `generatedLine` of the encoder; `now` stands for the ambient clock text
`new Date().toLocaleString()`. -/
def generatedLineFor (now : List Char) : List Char :=
  s2l "Generated " ++ sanitizeTextValue now

/-- The flat `lines` list of the encoder. -/
def linesFor (set : FlashcardSet) (now : List Char) : List (List Char) :=
  wrapLongLine (headerTitleFor set) PDF_MAX_LINE_CHARS ++
  wrapLongLine (generatedLineFor now) PDF_MAX_LINE_CHARS ++
  [([] : List Char)] ++
  cardLines set.cards.length 0 set.cards

/-- `contentLines` of the encoder, with its empty-content placeholder. -/
def contentLinesFor (set : FlashcardSet) (now : List Char) : List (List Char) :=
  if (linesFor set now).length > 0 then linesFor set now
  else [s2l "Flashcard export"]

/-- `pages` of the encoder: pagination plus the empty-pagination placeholder. -/
def pagesFor (set : FlashcardSet) (now : List Char) : List (List (List Char)) :=
  if paginate PDF_LINES_PER_PAGE (contentLinesFor set now) = [] then
    [[s2l "Flashcard export"]]
  else paginate PDF_LINES_PER_PAGE (contentLinesFor set now)

/-- The text-showing tail of a page's content stream: one `Tj` per line with
a `T*` between consecutive lines. -/
def tjParts : List (List Char) → List (List Char)
  | [] => []
  | [l] => [s2l "(" ++ escapePdfText l ++ s2l ") Tj"]
  | l :: rest => (s2l "(" ++ escapePdfText l ++ s2l ") Tj") :: s2l "T*" :: tjParts rest

/-- `streamBody` for one page.  `769.89` is exactly how JS prints the double
`PDF_PAGE_HEIGHT - PDF_MARGIN_TOP = 841.89 - 72` (the subtraction is exact in
double precision and `"769.89"` is its shortest round-tripping literal);
`12`, `18` and `56` are `PDF_FONT_SIZE`, `PDF_LINE_HEIGHT` and `PDF_MARGIN_X`. -/
def streamBodyFor (pageLines : List (List Char)) : List Char :=
  joinSep (s2l "\n")
    ([s2l "BT", s2l "/F1 12 Tf", s2l "18 TL", s2l "1 0 0 1 56 769.89 Tm"] ++
      tjParts pageLines ++ [s2l "ET"]) ++ s2l "\n"

/-- A content-stream object body.  The `/Length` entry is
`encoder.encode(streamBody).length`; every character of the body is ASCII, so
the byte count equals the character count used here. -/
def contentStreamFor (pageLines : List (List Char)) : List Char :=
  s2l "<< /Length " ++ natToChars (streamBodyFor pageLines).length ++
  s2l " >>\nstream\n" ++ streamBodyFor pageLines ++ s2l "endstream\n"

/-- A page object body; `595.28 841.89` are the JS renderings of
`PDF_PAGE_WIDTH` and `PDF_PAGE_HEIGHT`. -/
def pageContentFor (contentId : Nat) : List Char :=
  s2l "<< /Type /Page /Parent 2 0 R /MediaBox [0 0 595.28 841.89] /Resources << /Font << /F1 3 0 R >> >> /Contents " ++
  natToChars contentId ++ s2l " 0 R >>\n"

/-- The `pages.forEach` loop allocating page ids `4..3+pageCount` and content
ids `4+pageCount..3+2*pageCount` and building both object lists. -/
def mkObjs : Nat → Nat → List (List (List Char)) → List PdfObj × List PdfObj
  | _, _, [] => ([], [])
  | pageId, contentId, pg :: rest =>
    let pair := mkObjs (pageId + 1) (contentId + 1) rest
    (⟨pageId, pageContentFor contentId⟩ :: pair.1,
     ⟨contentId, contentStreamFor pg⟩ :: pair.2)

/-- Insertion step of the id sort. -/
def insertById (o : PdfObj) : List PdfObj → List PdfObj
  | [] => [o]
  | x :: xs => if o.id ≤ x.id then o :: x :: xs else x :: insertById o xs

/-- The source sorts `allObjects` with `(a, b) => a.id - b.id`; the ids are
pairwise distinct, so every comparison sort yields the same ascending order,
modelled here by insertion sort. -/
def sortById : List PdfObj → List PdfObj
  | [] => []
  | x :: xs => insertById x (sortById xs)

/-- `fontObject` of the encoder. -/
def fontObject : PdfObj :=
  ⟨3, s2l "<< /Type /Font /Subtype /Type1 /BaseFont /Helvetica >>\n"⟩

/-- `catalogObject` of the encoder. -/
def catalogObject : PdfObj := ⟨1, s2l "<< /Type /Catalog /Pages 2 0 R >>\n"⟩

/-- `kidsRefs` of the encoder. -/
def kidsRefsFor (pageObjects : List PdfObj) : List Char :=
  joinSep (s2l " ") (pageObjects.map (fun o => natToChars o.id ++ s2l " 0 R"))

/-- `pagesObject` (the page tree) of the encoder. -/
def pagesObjectFor (pageCount : Nat) (pageObjects : List PdfObj) : PdfObj :=
  ⟨2, s2l "<< /Type /Pages /Count " ++ natToChars pageCount ++
    s2l " /Kids [" ++ kidsRefsFor pageObjects ++ s2l "] >>\n"⟩

/-- `allObjects` of the encoder. -/
def allObjectsFor (set : FlashcardSet) (now : List Char) : List PdfObj :=
  let pages := pagesFor set now
  let pair := mkObjs 4 (4 + pages.length) pages
  sortById ([catalogObject, pagesObjectFor pages.length pair.1, fontObject] ++
    pair.1 ++ pair.2)

/-- Serialized form of one object: the `id 0 obj` header, the body, `endobj`. -/
def objBytes (o : PdfObj) : List Char :=
  natToChars o.id ++ s2l " 0 obj\n" ++ o.content ++ s2l "endobj\n"

/-- The emission loop: each object's offset (`pdf.length` at the time) is
recorded before the object's bytes are appended. -/
def emitObjects : List PdfObj → List Char → List (Nat × Nat) →
    List Char × List (Nat × Nat)
  | [], pdf, offsets => (pdf, offsets)
  | o :: rest, pdf, offsets =>
    emitObjects rest (pdf ++ objBytes o) (offsets ++ [(o.id, pdf.length)])

/-- Closed form of the offsets recorded by `emitObjects` from a base offset. -/
def offsAux : List PdfObj → Nat → List (Nat × Nat)
  | [], _ => []
  | o :: rest, base => (o.id, base) :: offsAux rest (base + (objBytes o).length)

/-- The cross-reference entry lines, one per recorded offset. -/
def xrefEntries : List (Nat × Nat) → List Char
  | [] => []
  | e :: rest =>
    padStart 10 '0' (natToChars e.2) ++ s2l " 00000 n \n" ++ xrefEntries rest

/-- The result of one encoding call: the page line blocks, the sorted object
list, the recorded offset table, the cross-reference offset and the final
document text (whose characters are all ASCII, so character positions are
also TextEncoder byte positions). -/
structure PdfBuild where
  pages : List (List (List Char))
  objects : List PdfObj
  offsets : List (Nat × Nat)
  xrefOffset : Nat
  pdf : List Char
deriving DecidableEq

/-- The object-emission pass over `allObjects`, starting from the `%PDF-1.4`
header with an empty offset table. -/
def emittedFor (set : FlashcardSet) (now : List Char) :
    List Char × List (Nat × Nat) :=
  emitObjects (allObjectsFor set now) (s2l "%PDF-1.4\n") []

/-- `xrefOffset` of the encoder: the length of the output at the moment the
cross-reference section starts. -/
def xrefOffsetFor (set : FlashcardSet) (now : List Char) : Nat :=
  (emittedFor set now).1.length

/-- The final document text: emitted objects, cross-reference section,
trailer, `startxref` footer. -/
def pdfTextFor (set : FlashcardSet) (now : List Char) : List Char :=
  (emittedFor set now).1 ++ s2l "xref\n0 " ++
  natToChars ((allObjectsFor set now).length + 1) ++ s2l "\n" ++
  s2l "0000000000 65535 f \n" ++ xrefEntries (emittedFor set now).2 ++
  s2l "trailer\n<< /Size " ++ natToChars ((allObjectsFor set now).length + 1) ++
  s2l " /Root 1 0 R >>\nstartxref\n" ++ natToChars (xrefOffsetFor set now) ++
  s2l "\n%%EOF"

/-- The whole document assembly of `createFlashcardsPdfBlob` after the guard:
header, objects, cross-reference section, trailer, `startxref` footer. -/
def pdfBuildOf (set : FlashcardSet) (now : List Char) : PdfBuild :=
  ⟨pagesFor set now, allObjectsFor set now, (emittedFor set now).2,
    xrefOffsetFor set now, pdfTextFor set now⟩

/-- `createFlashcardsPdfBlob` from `FlashcardStudyPanel.tsx`.
`hasTextEncoder` models `typeof TextEncoder !== "undefined"`, `now` models
the ambient clock text `new Date().toLocaleString()`, and the result models
the blob's bytes (`none` is the source's `null`). -/
def createFlashcardsPdfBlob (hasTextEncoder : Bool) (set : FlashcardSet)
    (now : List Char) : Option PdfBuild :=
  if hasTextEncoder = false ∨ set.cards = [] then none
  else some (pdfBuildOf set now)

/-- The `id 0 obj` header that must sit at each recorded offset. -/
def objHeader (id : Nat) : List Char := natToChars id ++ s2l " 0 obj"

/-- Characters representable as a single byte by TextEncoder (UTF-8). -/
def allAscii (l : List Char) : Prop := ∀ c ∈ l, c.toNat < 128

instance (l : List Char) : Decidable (allAscii l) := by
  unfold allAscii
  infer_instance

/-- Printable ASCII, the range `sanitizeTextValue` guarantees. -/
def printableChar (c : Char) : Prop := 32 ≤ c.toNat ∧ c.toNat ≤ 126

instance (c : Char) : Decidable (printableChar c) := by
  unfold printableChar
  infer_instance

/-! ### Input builders and predicates used to state the claims -/

/-- One well-formed `Q: ... / A: ...` block for a record. -/
def mkBlock (p : ParsedFlashcard) : List Char :=
  s2l "Q: " ++ p.question ++ s2l "\n" ++ s2l "A: " ++ p.answer

/-- Raw input text formed by concatenating well-formed blocks, one marker
line per row. -/
def mkRaw (ps : List ParsedFlashcard) : List Char :=
  joinSep (s2l "\n") (ps.map mkBlock)

/-- The individual lines of the blocks of `mkRaw`. -/
def blockLines (ps : List ParsedFlashcard) : List (List Char) :=
  concatAll (ps.map (fun p => [s2l "Q: " ++ p.question, s2l "A: " ++ p.answer]))

/-- Single-line marker content: non-blank after trimming and free of line
terminators. -/
def goodText (s : List Char) : Prop :=
  trim s ≠ [] ∧ ∀ c ∈ s, isLineTerm c = false

/-- A plain continuation line: non-empty, not starting with whitespace or a
digit (so the ordinal-stripping preprocessor leaves it alone), free of line
terminators (LF, CR, U+2028, U+2029), and matching neither marker regex. -/
def contLine (c : List Char) : Prop :=
  c ≠ [] ∧ (∀ ch ∈ c.take 1, isWsChar ch = false ∧ isDigit ch = false) ∧
  (∀ ch ∈ c, isLineTerm ch = false) ∧
  questionMatch (trim c) = none ∧ answerMatch (trim c) = none

/-- `r2` differs from `r1` only by casing and surrounding whitespace: both
fields agree after trimming and lower-casing. -/
def variantOf (r2 r1 : ParsedFlashcard) : Prop :=
  (trim r2.question).map lowerChar = (trim r1.question).map lowerChar ∧
  (trim r2.answer).map lowerChar = (trim r1.answer).map lowerChar

instance (s : List Char) : Decidable (goodText s) := by
  unfold goodText
  infer_instance

instance (c : List Char) : Decidable (contLine c) := by
  unfold contLine
  infer_instance

instance (r2 r1 : ParsedFlashcard) : Decidable (variantOf r2 r1) := by
  unfold variantOf
  infer_instance

/-- A character that cannot begin a match of the ordinal pattern
`\s*\d+\.\s*`: neither whitespace nor a digit. -/
def okChar (c : Char) : Bool := !(isWsChar c) && !(isDigit c)

/-- Every line-start position of the text (offset 0 when the flag is set,
and every position right after a line terminator) carries a character that
is neither whitespace nor a digit, so the multi-line anchored ordinal
pattern matches nowhere. -/
def lineStartsOk : List Char → Bool → Bool
  | [], _ => true
  | c :: rest, atStart =>
    (if atStart then okChar c else true) && lineStartsOk rest (isLineTerm c)

/-- A line whose first character is not whitespace. -/
def headNotWs : List Char → Prop
  | [] => False
  | c :: _ => isWsChar c = false

/-- A line as assembled into a raw input: its head is not whitespace and it
contains no newline, so joining with `\n` and re-splitting recovers it. -/
def niceLine (L : List Char) : Prop :=
  headNotWs L ∧ ∀ c ∈ L, c ≠ '\n'

/-! ### Concrete inputs used by witnesses and counterexamples -/

/-- First record of the spec's end-to-end example deck. -/
def card1 : Flashcard := ⟨s2l "id1", s2l "What is 2+2?", s2l "4", false⟩

/-- Second record of the spec's end-to-end example deck. -/
def card2 : Flashcard := ⟨s2l "id2", s2l "Capital of France?", s2l "Paris", false⟩

/-- The spec's two-record example deck. -/
def demoSet : FlashcardSet := ⟨s2l "set1", s2l "Quiz", s2l "t0", [card1, card2]⟩

/-- A fixed clock reading. -/
def demoNow : List Char := s2l "2026-01-01"

/-- One possible identifier supply drawn by `createId()`. -/
def idsA : Nat → List Char := fun _ => s2l "a"

/-- Another possible identifier supply drawn by `createId()`. -/
def idsB : Nat → List Char := fun _ => s2l "b"

/-! ## Lemmas: characters, trimming, splitting, joining -/

theorem mem_concatAll {α : Type} {a : α} {l : List α} {L : List (List α)}
    (hl : l ∈ L) (ha : a ∈ l) : a ∈ concatAll L := by
  induction L with
  | nil => cases hl
  | cons x xs ih =>
    show a ∈ x ++ concatAll xs
    rcases List.mem_cons.mp hl with h | h
    · exact List.mem_append.mpr (Or.inl (h ▸ ha))
    · exact List.mem_append.mpr (Or.inr (ih h))

theorem joinSep_cons₂ (sep x y : List Char) (ys : List (List Char)) :
    joinSep sep (x :: y :: ys) = x ++ sep ++ joinSep sep (y :: ys) := rfl

theorem mem_joinSep {c : Char} {L sep : List Char} {Ls : List (List Char)}
    (hL : L ∈ Ls) (hc : c ∈ L) : c ∈ joinSep sep Ls := by
  induction Ls with
  | nil => cases hL
  | cons x xs ih =>
    cases xs with
    | nil =>
      rcases List.mem_cons.mp hL with h | h
      · exact h ▸ hc
      · cases h
    | cons y ys =>
      rw [joinSep_cons₂]
      rcases List.mem_cons.mp hL with h | h
      · exact List.mem_append.mpr (Or.inl (List.mem_append.mpr (Or.inl (h ▸ hc))))
      · exact List.mem_append.mpr (Or.inr (ih h))

theorem trimRight_eq_rdropWhile (s : List Char) :
    trimRight s = s.rdropWhile isWsChar := rfl

theorem trimRight_isPre (s : List Char) : List.IsPrefix (trimRight s) s :=
  List.rdropWhile_prefix _ _

theorem trimRight_idem (s : List Char) : trimRight (trimRight s) = trimRight s :=
  List.rdropWhile_idempotent _ _

theorem trimRight_eq_nil_iff {s : List Char} :
    trimRight s = [] ↔ ∀ c ∈ s, isWsChar c :=
  List.rdropWhile_eq_nil_iff

theorem trimRight_last_not_ws {s : List Char} (h : trimRight s ≠ []) :
    ¬ isWsChar ((trimRight s).getLast h) :=
  List.rdropWhile_last_not _ _ _

theorem trimLeft_eq_nil_iff {s : List Char} :
    trimLeft s = [] ↔ ∀ c ∈ s, isWsChar c :=
  List.dropWhile_eq_nil_iff

theorem trimLeft_cons_not_ws {c : Char} {l : List Char} (h : isWsChar c = false) :
    trimLeft (c :: l) = c :: l := by
  unfold trimLeft
  rw [List.dropWhile_cons, h]
  simp

theorem trimRight_append_right {x y : List Char} (h : ∃ c ∈ y, isWsChar c = false) :
    trimRight (x ++ y) = x ++ trimRight y := by
  unfold trimRight
  rw [List.reverse_append, List.dropWhile_append]
  have hne : y.reverse.dropWhile isWsChar ≠ [] := by
    rw [Ne, List.dropWhile_eq_nil_iff]
    push_neg
    obtain ⟨c, hc, hcw⟩ := h
    exact ⟨c, List.mem_reverse.mpr hc, by simp [hcw]⟩
  rw [if_neg (by simpa using hne)]
  rw [List.reverse_append, List.reverse_reverse]

theorem trimRight_append_ws {x y : List Char} (h : ∀ c ∈ y, isWsChar c) :
    trimRight (x ++ y) = trimRight x := by
  unfold trimRight
  rw [List.reverse_append, List.dropWhile_append]
  have hnil : y.reverse.dropWhile isWsChar = [] := by
    rw [List.dropWhile_eq_nil_iff]
    exact fun c hc => h c (List.mem_reverse.mp hc)
  rw [if_pos (by simpa using hnil)]

theorem mem_trimRight {c : Char} {s : List Char} (h : c ∈ trimRight s) : c ∈ s :=
  (trimRight_isPre s).subset h

theorem mem_trim {c : Char} {s : List Char} (h : c ∈ trim s) : c ∈ s := by
  unfold trim trimLeft at h
  exact mem_trimRight (List.dropWhile_subset _ h)

theorem trim_eq_nil_iff {s : List Char} :
    trim s = [] ↔ ∀ c ∈ s, isWsChar c := by
  constructor
  · intro h
    by_cases htr : trimRight s = []
    · exact trimRight_eq_nil_iff.mp htr
    · exfalso
      unfold trim at h
      have hall : ∀ c ∈ trimRight s, isWsChar c := trimLeft_eq_nil_iff.mp h
      have hlast := trimRight_last_not_ws htr
      exact hlast (hall _ (List.getLast_mem htr))
  · intro h
    have htr : trimRight s = [] := trimRight_eq_nil_iff.mpr h
    unfold trim
    rw [htr]
    rfl

theorem dropWhile_cons_head {p : Char → Bool} {l m : List Char} {c : Char}
    (h : l.dropWhile p = c :: m) : p c = false := by
  induction l with
  | nil => cases h
  | cons d rest ih =>
    rw [List.dropWhile_cons] at h
    by_cases hd : p d
    · rw [if_pos hd] at h
      exact ih h
    · rw [if_neg hd] at h
      cases h
      simpa using hd

theorem trim_head_not_ws {c : Char} {l s : List Char} (h : trim s = c :: l) :
    isWsChar c = false := by
  unfold trim trimLeft at h
  exact dropWhile_cons_head h

theorem trim_cons_not_ws {c : Char} {l : List Char} (h : isWsChar c = false) :
    trim (c :: l) = trimRight (c :: l) := by
  unfold trim
  cases htr : trimRight (c :: l) with
  | nil => rfl
  | cons d t =>
    have hpre : List.IsPrefix (d :: t) (c :: l) := htr ▸ trimRight_isPre (c :: l)
    obtain ⟨u, hu⟩ := hpre
    have hd : d = c := by
      have := congrArg (fun x => x.head?) hu
      simpa using this
    rw [hd]
    exact trimLeft_cons_not_ws h

theorem getLast?_trimRight_not_ws {s : List Char} {c : Char}
    (h : (trimRight s).getLast? = some c) : isWsChar c = false := by
  have hne : trimRight s ≠ [] := by
    intro hx
    rw [hx] at h
    cases h
  have heq := List.getLast?_eq_getLast (trimRight s) hne
  rw [heq] at h
  have hc : (trimRight s).getLast hne = c := by
    exact Option.some.inj h
  have := trimRight_last_not_ws hne
  rw [hc] at this
  simpa using this

theorem trim_idem (s : List Char) : trim (trim s) = trim s := by
  have hsub : List.IsSuffix (trim s) (trimRight s) := by
    unfold trim trimLeft
    exact List.dropWhile_suffix _
  have h1 : trimRight (trim s) = trim s := by
    rcases eq_or_ne (trim s) [] with h | h
    · rw [h]; rfl
    · rw [trimRight_eq_rdropWhile]
      rw [List.rdropWhile_eq_self_iff]
      intro h'
      obtain ⟨u, hu⟩ := hsub
      have hlast : (trim s).getLast? = (trimRight s).getLast? := by
        rw [← hu]
        exact (List.getLast?_append_of_ne_nil u h).symm
      have hsome : (trim s).getLast? = some ((trim s).getLast h') :=
        List.getLast?_eq_getLast _ h'
      have := getLast?_trimRight_not_ws (hlast ▸ hsome)
      simpa using this
  have h2 : trimLeft (trim s) = trim s := by
    conv_lhs => rw [trim, trimLeft, trimLeft]
    rw [List.dropWhile_idempotent]
    rfl
  conv_lhs => rw [trim]
  rw [h1]
  exact h2

theorem trim_trimRight (s : List Char) : trim (trimRight s) = trim s := by
  unfold trim
  rw [trimRight_idem]

theorem splitCh_no_sep {sep : Char} {l : List Char} (h : ∀ c ∈ l, c ≠ sep) :
    splitCh sep l = [l] := by
  induction l with
  | nil => rfl
  | cons c rest ih =>
    have hc : c ≠ sep := h c (by simp)
    have hrest := ih (fun d hd => h d (by simp [hd]))
    rw [splitCh, if_neg hc, hrest]

theorem splitCh_append_sep {sep : Char} {x y : List Char}
    (h : ∀ c ∈ x, c ≠ sep) :
    splitCh sep (x ++ sep :: y) = x :: splitCh sep y := by
  induction x with
  | nil =>
    show splitCh sep (sep :: y) = [] :: splitCh sep y
    rw [splitCh, if_pos rfl]
  | cons c rest ih =>
    have hc : c ≠ sep := h c (by simp)
    have hrest := ih (fun d hd => h d (by simp [hd]))
    show splitCh sep (c :: (rest ++ sep :: y)) = (c :: rest) :: splitCh sep y
    rw [splitCh, if_neg hc, hrest]

/-! ## Lemmas: pagination -/

theorem pagGo_join {α : Type} (m : Nat) :
    ∀ (ls cur : List α), concatAll (pagGo m cur ls) = cur ++ ls := by
  intro ls
  induction ls with
  | nil =>
    intro cur
    show concatAll (if cur.length > 0 then [cur] else []) = cur ++ []
    by_cases h : cur.length > 0
    · rw [if_pos h]
      simp [concatAll]
    · have hc : cur = [] := List.length_eq_zero.mp (by omega)
      rw [if_neg h, hc]
      rfl
  | cons l rest ih =>
    intro cur
    show concatAll
      (if cur.length ≥ m then cur :: pagGo m [l] rest
       else pagGo m (cur ++ [l]) rest) = cur ++ l :: rest
    by_cases h : cur.length ≥ m
    · rw [if_pos h]
      show cur ++ concatAll (pagGo m [l] rest) = cur ++ l :: rest
      rw [ih]
      rfl
    · rw [if_neg h, ih]
      simp

theorem pagGo_sizes {α : Type} (m : Nat) (hm : 1 ≤ m) :
    ∀ (ls cur : List α), cur.length ≤ m → ∀ pg ∈ pagGo m cur ls, pg.length ≤ m := by
  intro ls
  induction ls with
  | nil =>
    intro cur hcur pg hpg
    by_cases h : cur.length > 0
    · have : pg ∈ [cur] := by
        have he : pagGo m cur ([] : List α) = [cur] := by
          show (if cur.length > 0 then [cur] else []) = [cur]
          rw [if_pos h]
        rwa [he] at hpg
      simp at this
      rw [this]
      exact hcur
    · have he : pagGo m cur ([] : List α) = [] := by
        show (if cur.length > 0 then [cur] else []) = []
        rw [if_neg h]
      rw [he] at hpg
      cases hpg
  | cons l rest ih =>
    intro cur hcur pg hpg
    have he : pagGo m cur (l :: rest) =
        if cur.length ≥ m then cur :: pagGo m [l] rest
        else pagGo m (cur ++ [l]) rest := rfl
    rw [he] at hpg
    by_cases h : cur.length ≥ m
    · rw [if_pos h] at hpg
      rcases List.mem_cons.mp hpg with h1 | h1
      · rw [h1]; exact hcur
      · exact ih [l] (by simpa using hm) pg h1
    · rw [if_neg h] at hpg
      exact ih (cur ++ [l]) (by simp; omega) pg hpg

theorem pagGo_count {α : Type} (m : Nat) (hm : 1 ≤ m) :
    ∀ (ls cur : List α), cur.length ≤ m → (cur ≠ [] ∨ ls ≠ []) →
      (pagGo m cur ls).length = (cur.length + ls.length + m - 1) / m := by
  intro ls
  induction ls with
  | nil =>
    intro cur hcur hne
    have hc : cur ≠ [] := by
      rcases hne with h | h
      · exact h
      · exact absurd rfl h
    have hpos : 0 < cur.length := List.length_pos.mpr hc
    have he : pagGo m cur ([] : List α) = [cur] := by
      show (if cur.length > 0 then [cur] else []) = [cur]
      rw [if_pos hpos]
    rw [he]
    have h1 : 1 * m ≤ cur.length + 0 + m - 1 := by omega
    have h2 : cur.length + 0 + m - 1 < (1 + 1) * m := by omega
    rw [List.length_cons, List.length_nil]
    exact (Nat.div_eq_of_lt_le h1 h2).symm
  | cons l rest ih =>
    intro cur hcur hne
    have he : pagGo m cur (l :: rest) =
        if cur.length ≥ m then cur :: pagGo m [l] rest
        else pagGo m (cur ++ [l]) rest := rfl
    rw [he]
    by_cases h : cur.length ≥ m
    · rw [if_pos h]
      have hrec := ih [l] (by simpa using hm) (Or.inl (by simp))
      have hcm : cur.length = m := le_antisymm hcur h
      have hnum1 : ([l] : List α).length + rest.length + m - 1 = rest.length + m := by
        simp
        omega
      have hnum2 : cur.length + (l :: rest).length + m - 1 = rest.length + m + m := by
        rw [hcm]
        simp
        omega
      rw [List.length_cons, hrec, hnum1, hnum2]
      conv_rhs => rw [Nat.add_div_right _ (by omega : 0 < m)]
    · rw [if_neg h]
      have hrec := ih (cur ++ [l]) (by simp; omega) (Or.inl (by simp))
      rw [hrec]
      have : (cur ++ [l]).length + rest.length + m - 1 =
          cur.length + (l :: rest).length + m - 1 := by simp; omega
      rw [this]

theorem encode_none_iff_aux (h : Bool) (set : FlashcardSet) (now : List Char) :
    createFlashcardsPdfBlob h set now = none ↔ h = false ∨ set.cards = [] := by
  unfold createFlashcardsPdfBlob
  by_cases hc : h = false ∨ set.cards = []
  · simp [hc]
  · simp [hc]

/-! ## Claim C5: pagination exactness -/

/-- C5: for every flat line list of length `L ≥ 1` paginated with
`linesPerPage P = max(1, floor((pageHeight - topMargin - bottomMargin) /
lineHeight))` — any `P ≥ 1`, which that formula always is — the encoder's
pagination loop produces exactly `⌈L / P⌉ = (L + P - 1) / P` pages, each page
holds at most `P` lines, and concatenating the pages' line lists in order
reproduces the original line list exactly. -/
theorem pagination_exact (P : Nat) (ls : List (List Char))
    (hP : 1 ≤ P) (hL : 1 ≤ ls.length) :
    (paginate P ls).length = (ls.length + P - 1) / P ∧
    (∀ pg ∈ paginate P ls, pg.length ≤ P) ∧
    concatAll (paginate P ls) = ls := by
  refine ⟨?_, fun pg hpg => pagGo_sizes P hP ls [] (by simp) pg hpg, ?_⟩
  · have h := pagGo_count P hP ls [] (by simp)
      (Or.inr (by
        intro hx
        rw [hx] at hL
        simp at hL))
    simpa using h
  · have h := pagGo_join P ls []
    simpa using h

/-- Witness for C5 at `P = 2` and a three-line list. -/
theorem pagination_exact_witness :
    (1 ≤ 2 ∧ 1 ≤ ([s2l "a", s2l "b", s2l "c"] : List (List Char)).length) ∧
    ((paginate 2 [s2l "a", s2l "b", s2l "c"]).length =
        (([s2l "a", s2l "b", s2l "c"] : List (List Char)).length + 2 - 1) / 2 ∧
      (∀ pg ∈ paginate 2 [s2l "a", s2l "b", s2l "c"], pg.length ≤ 2) ∧
      concatAll (paginate 2 [s2l "a", s2l "b", s2l "c"]) =
        [s2l "a", s2l "b", s2l "c"]) :=
  ⟨⟨by decide, by decide⟩,
    pagination_exact 2 [s2l "a", s2l "b", s2l "c"] (by decide) (by decide)⟩

/-! ## Claim C8: the "no document" sentinel -/

/-- C8: the encoder returns the `null` sentinel exactly when the deck has no
cards or the runtime lacks `TextEncoder`, and in every other case it returns
document bytes; as a total function it never throws. -/
theorem encoder_null_iff (h : Bool) (set : FlashcardSet) (now : List Char) :
    (createFlashcardsPdfBlob h set now = none ↔ h = false ∨ set.cards = []) ∧
    ((createFlashcardsPdfBlob h set now).isSome = true ↔
      (h = true ∧ set.cards ≠ [])) := by
  have hx := encode_none_iff_aux h set now
  refine ⟨hx, ?_⟩
  rw [Option.isSome_iff_ne_none, Ne, hx]
  constructor
  · intro hcon
    push_neg at hcon
    obtain ⟨h1, h2⟩ := hcon
    refine ⟨?_, h2⟩
    cases h with
    | false => exact absurd rfl h1
    | true => rfl
  · rintro ⟨h1, h2⟩
    push_neg
    refine ⟨?_, h2⟩
    rw [h1]
    simp

/-! ## Claim C2: the end-to-end example document -/

/-- C2 counterexample: encoding the spec's two-record deck (which fits on
exactly one page) yields a cross-reference trailer declaring object count
`allObjects.length + 1 = 6` — not 7 as the claim states. -/
theorem encode_example_not_seven :
    ¬ ((createFlashcardsPdfBlob true demoSet demoNow).map
        (fun b => (b.pages.length, b.objects.length + 1)) = some (1, 7)) := by
  decide

set_option maxRecDepth 40000 in
/-- C2 amended: encoding the spec's two-record deck produces exactly one
page, a cross-reference section and trailer declaring object count 6
(Catalog, PageTree, Font, 1 Page, 1 ContentStream, plus the free-list head),
and a Catalog object referencing the PageTree object `2 0 R`. -/
theorem encode_example_structure :
    (createFlashcardsPdfBlob true demoSet demoNow).map
        (fun b => (b.pages.length, b.objects.length + 1,
          (b.objects.find? (fun o => o.id == 1)).map PdfObj.content,
          (s2l "xref\n0 6\n").isPrefixOf (b.pdf.drop b.xrefOffset))) =
      some (1, 6, some (s2l "<< /Type /Catalog /Pages 2 0 R >>\n"), true) := by
  decide

/-! ## Claim C4: invocation determinism -/

/-- C4 counterexample: `buildFlashcardsFromParsed` consumes fresh random
identifiers from `createId()`, so two invocations on the same parsed input
(drawing different ambient identifiers) yield different outputs. -/
theorem build_not_invocation_deterministic :
    buildFlashcardsFromParsed idsA [⟨s2l "q", s2l "x"⟩] ≠
      buildFlashcardsFromParsed idsB [⟨s2l "q", s2l "x"⟩] := by
  decide

/-! ## Lemmas: deduplication -/

theorem canonicalKey_trim (q a : List Char) :
    canonicalKey (trim q) (trim a) = canonicalKey q a := by
  unfold canonicalKey
  rw [trim_idem, trim_idem]

theorem buildGo_cons (ids : Nat → List Char) (seen : List (List Char)) (k : Nat)
    (item : ParsedFlashcard) (rest : List ParsedFlashcard) :
    buildGo ids seen k (item :: rest) =
      if trim item.question = [] ∨ trim item.answer = [] then
        buildGo ids seen k rest
      else if canonicalKey (trim item.question) (trim item.answer) ∈ seen then
        buildGo ids seen k rest
      else
        ⟨ids k, trim item.question, trim item.answer, false⟩ ::
          buildGo ids (canonicalKey (trim item.question) (trim item.answer) :: seen)
            (k + 1) rest := rfl

theorem buildGo_skip_mem (ids : Nat → List Char) (R2 : ParsedFlashcard)
    (zs : List ParsedFlashcard) :
    ∀ (l : List ParsedFlashcard) (seen : List (List Char)) (k : Nat),
      canonicalKey R2.question R2.answer ∈ seen →
      buildGo ids seen k (l ++ R2 :: zs) = buildGo ids seen k (l ++ zs) := by
  intro l
  induction l with
  | nil =>
    intro seen k hmem
    show buildGo ids seen k (R2 :: zs) = buildGo ids seen k zs
    rw [buildGo_cons]
    by_cases he : trim R2.question = [] ∨ trim R2.answer = []
    · rw [if_pos he]
    · rw [if_neg he, if_pos (by rwa [canonicalKey_trim])]
  | cons item l ih =>
    intro seen k hmem
    show buildGo ids seen k (item :: (l ++ R2 :: zs)) =
      buildGo ids seen k (item :: (l ++ zs))
    rw [buildGo_cons, buildGo_cons]
    by_cases he : trim item.question = [] ∨ trim item.answer = []
    · rw [if_pos he, if_pos he]
      exact ih seen k hmem
    · rw [if_neg he, if_neg he]
      by_cases hk : canonicalKey (trim item.question) (trim item.answer) ∈ seen
      · rw [if_pos hk, if_pos hk]
        exact ih seen k hmem
      · rw [if_neg hk, if_neg hk]
        congr 1
        exact ih _ _ (List.mem_cons_of_mem _ hmem)

theorem buildGo_drop_dup (ids : Nat → List Char) (R1 R2 : ParsedFlashcard)
    (ys zs : List ParsedFlashcard)
    (hq : trim R1.question ≠ []) (ha : trim R1.answer ≠ [])
    (hkey : canonicalKey R2.question R2.answer =
      canonicalKey R1.question R1.answer) :
    ∀ (xs : List ParsedFlashcard) (seen : List (List Char)) (k : Nat),
      buildGo ids seen k (xs ++ R1 :: (ys ++ R2 :: zs)) =
      buildGo ids seen k (xs ++ R1 :: (ys ++ zs)) := by
  intro xs
  induction xs with
  | nil =>
    intro seen k
    show buildGo ids seen k (R1 :: (ys ++ R2 :: zs)) =
      buildGo ids seen k (R1 :: (ys ++ zs))
    rw [buildGo_cons, buildGo_cons]
    have he : ¬(trim R1.question = [] ∨ trim R1.answer = []) := by
      push_neg
      exact ⟨hq, ha⟩
    rw [if_neg he, if_neg he]
    by_cases hk : canonicalKey (trim R1.question) (trim R1.answer) ∈ seen
    · rw [if_pos hk, if_pos hk]
      refine buildGo_skip_mem ids R2 zs ys seen k ?_
      rw [hkey, ← canonicalKey_trim]
      exact hk
    · rw [if_neg hk, if_neg hk]
      congr 1
      refine buildGo_skip_mem ids R2 zs ys _ _ ?_
      rw [hkey, canonicalKey_trim]
      exact List.mem_cons_self _ _
  | cons item xs ih =>
    intro seen k
    show buildGo ids seen k (item :: (xs ++ R1 :: (ys ++ R2 :: zs))) =
      buildGo ids seen k (item :: (xs ++ R1 :: (ys ++ zs)))
    rw [buildGo_cons, buildGo_cons]
    by_cases he : trim item.question = [] ∨ trim item.answer = []
    · rw [if_pos he, if_pos he]
      exact ih seen k
    · rw [if_neg he, if_neg he]
      by_cases hk : canonicalKey (trim item.question) (trim item.answer) ∈ seen
      · rw [if_pos hk, if_pos hk]
        exact ih seen k
      · rw [if_neg hk, if_neg hk]
        congr 1
        exact ih _ _

theorem buildGo_spec (ids : Nat → List Char) :
    ∀ (parsed : List ParsedFlashcard) (seen : List (List Char)) (k : Nat),
      (buildGo ids seen k parsed).map cardQA =
      (dedupeSpecFirstWins seen ((parsed.map trimPair).filter okPair)).map
        (fun p => (p.question, p.answer)) := by
  intro parsed
  induction parsed with
  | nil => intro seen k; rfl
  | cons item rest ih =>
    intro seen k
    rw [buildGo_cons, List.map_cons, List.filter_cons]
    by_cases he : trim item.question = [] ∨ trim item.answer = []
    · have hok : okPair (trimPair item) = false := by
        unfold okPair trimPair
        simp only [trim_idem]
        rcases he with h | h
        · rw [h]
          simp
        · rw [h]
          simp
      rw [if_pos he, hok]
      simp only [Bool.false_eq_true, if_false]
      exact ih seen k
    · have hok : okPair (trimPair item) = true := by
        unfold okPair trimPair
        push_neg at he
        simp [trim_idem, he.1, he.2]
      rw [if_neg he, hok]
      simp only [if_true]
      have hkeyspec : canonicalKey (trimPair item).question (trimPair item).answer =
          canonicalKey (trim item.question) (trim item.answer) := rfl
      by_cases hk : canonicalKey (trim item.question) (trim item.answer) ∈ seen
      · rw [if_pos hk]
        show _ = (dedupeSpecFirstWins seen (trimPair item :: _)).map _
        unfold dedupeSpecFirstWins
        rw [hkeyspec, if_pos hk]
        exact ih seen k
      · rw [if_neg hk]
        show _ = (dedupeSpecFirstWins seen (trimPair item :: _)).map _
        unfold dedupeSpecFirstWins
        rw [hkeyspec, if_neg hk]
        rw [List.map_cons, List.map_cons]
        congr 1
        exact ih _ _

theorem buildGo_clean (ids : Nat → List Char) :
    ∀ (parsed : List ParsedFlashcard) (seen : List (List Char)) (k : Nat),
      ∀ c ∈ buildGo ids seen k parsed,
        trim c.question = c.question ∧ trim c.answer = c.answer ∧
        c.question ≠ [] ∧ c.answer ≠ [] := by
  intro parsed
  induction parsed with
  | nil => intro seen k c hc; cases hc
  | cons item rest ih =>
    intro seen k c hc
    rw [buildGo_cons] at hc
    by_cases he : trim item.question = [] ∨ trim item.answer = []
    · rw [if_pos he] at hc
      exact ih seen k c hc
    · rw [if_neg he] at hc
      push_neg at he
      by_cases hk : canonicalKey (trim item.question) (trim item.answer) ∈ seen
      · rw [if_pos hk] at hc
        exact ih seen k c hc
      · rw [if_neg hk] at hc
        rcases List.mem_cons.mp hc with h1 | h1
        · rw [h1]
          exact ⟨trim_idem _, trim_idem _, he.1, he.2⟩
        · exact ih _ _ c h1

theorem buildGo_keys (ids : Nat → List Char) :
    ∀ (parsed : List ParsedFlashcard) (seen : List (List Char)) (k : Nat),
      (∀ key ∈ (buildGo ids seen k parsed).map
          (fun c => canonicalKey c.question c.answer), key ∉ seen) ∧
      ((buildGo ids seen k parsed).map
          (fun c => canonicalKey c.question c.answer)).Nodup := by
  intro parsed
  induction parsed with
  | nil =>
    intro seen k
    exact ⟨(fun key hk => absurd hk (by simp [buildGo])), List.nodup_nil⟩
  | cons item rest ih =>
    intro seen k
    rw [buildGo_cons]
    by_cases he : trim item.question = [] ∨ trim item.answer = []
    · rw [if_pos he]
      exact ih seen k
    · rw [if_neg he]
      by_cases hk : canonicalKey (trim item.question) (trim item.answer) ∈ seen
      · rw [if_pos hk]
        exact ih seen k
      · rw [if_neg hk]
        rw [List.map_cons]
        have hrec := ih (canonicalKey (trim item.question) (trim item.answer) :: seen) (k + 1)
        constructor
        · intro key hkey
          rcases List.mem_cons.mp hkey with h1 | h1
          · intro hmem
            exact hk (show canonicalKey (trim item.question) (trim item.answer) ∈ seen
              from h1 ▸ hmem)
          · intro hmem
            exact hrec.1 key h1 (List.mem_cons_of_mem _ hmem)
        · rw [List.nodup_cons]
          constructor
          · intro hmem
            have h2 := hrec.1 _ hmem
            exact h2 (List.mem_cons_self _ _)
          · exact hrec.2

theorem buildGo_of_clean (ids₂ : Nat → List Char) :
    ∀ (cards : List Flashcard) (seen : List (List Char)) (k : Nat),
      (∀ c ∈ cards, trim c.question = c.question ∧ trim c.answer = c.answer ∧
        c.question ≠ [] ∧ c.answer ≠ []) →
      (∀ key ∈ cards.map (fun c => canonicalKey c.question c.answer), key ∉ seen) →
      (cards.map (fun c => canonicalKey c.question c.answer)).Nodup →
      (buildGo ids₂ seen k (cards.map asParsed)).map cardQA = cards.map cardQA := by
  intro cards
  induction cards with
  | nil => intro seen k _ _ _; rfl
  | cons c rest ih =>
    intro seen k hclean hkeys hnodup
    obtain ⟨hq, ha, hqne, hane⟩ := hclean c (List.mem_cons_self _ _)
    rw [List.map_cons, buildGo_cons]
    have he : ¬(trim (asParsed c).question = [] ∨ trim (asParsed c).answer = []) := by
      show ¬(trim c.question = [] ∨ trim c.answer = [])
      rw [hq, ha]
      push_neg
      exact ⟨hqne, hane⟩
    rw [if_neg he]
    have hkeyc : canonicalKey (trim (asParsed c).question) (trim (asParsed c).answer) =
        canonicalKey c.question c.answer := by
      show canonicalKey (trim c.question) (trim c.answer) = _
      rw [hq, ha]
    have hk : canonicalKey (trim (asParsed c).question) (trim (asParsed c).answer) ∉ seen := by
      rw [hkeyc]
      exact hkeys _ (by rw [List.map_cons]; exact List.mem_cons_self _ _)
    rw [if_neg hk]
    rw [List.map_cons, List.map_cons]
    congr 1
    · show (trim (asParsed c).question, trim (asParsed c).answer) = cardQA c
      show (trim c.question, trim c.answer) = (c.question, c.answer)
      rw [hq, ha]
    · rw [List.map_cons, List.nodup_cons] at hnodup
      refine ih _ _ (fun d hd => hclean d (List.mem_cons_of_mem _ hd)) ?_ hnodup.2
      intro key hkey
      rw [hkeyc]
      intro hmem
      rcases List.mem_cons.mp hmem with h1 | h1
      · exact hnodup.1 (h1 ▸ hkey)
      · exact hkeys key (by rw [List.map_cons]; exact List.mem_cons_of_mem _ hkey) h1

/-! ## Claim C6: first record per CanonicalKey wins -/

/-- C6: if `R2` (later in the input) differs from `R1` only by casing and
surrounding whitespace then the two records have equal `canonicalKey`s, the
dedup step produces exactly what it produces with `R2` removed (so `R1` — the
first record of that key — keeps its relative position and `R2` contributes
nothing), and in general the dedup output projects onto the spec's
first-record-per-key iteration over the trimmed, non-empty records. -/
theorem dedupe_first_wins (ids : Nat → List Char) (xs ys zs : List ParsedFlashcard)
    (R1 R2 : ParsedFlashcard) (hvar : variantOf R2 R1)
    (hq : trim R1.question ≠ []) (ha : trim R1.answer ≠ []) :
    canonicalKey R2.question R2.answer = canonicalKey R1.question R1.answer ∧
    buildFlashcardsFromParsed ids (xs ++ R1 :: (ys ++ R2 :: zs)) =
      buildFlashcardsFromParsed ids (xs ++ R1 :: (ys ++ zs)) ∧
    ∀ parsed : List ParsedFlashcard,
      (buildFlashcardsFromParsed ids parsed).map cardQA =
      (dedupeSpecFirstWins [] ((parsed.map trimPair).filter okPair)).map
        (fun p => (p.question, p.answer)) := by
  have hkey : canonicalKey R2.question R2.answer =
      canonicalKey R1.question R1.answer := by
    unfold canonicalKey
    rw [hvar.1, hvar.2]
  exact ⟨hkey, buildGo_drop_dup ids R1 R2 ys zs hq ha hkey xs [] 0,
    fun parsed => buildGo_spec ids parsed [] 0⟩

/-- Witness for C6: a later case/whitespace variant of a record is dropped. -/
theorem dedupe_first_wins_witness :
    (variantOf ⟨s2l " a", s2l "B"⟩ ⟨s2l "A ", s2l " b"⟩ ∧
      trim (s2l "A ") ≠ [] ∧ trim (s2l " b") ≠ []) ∧
    (canonicalKey (s2l " a") (s2l "B") = canonicalKey (s2l "A ") (s2l " b") ∧
      buildFlashcardsFromParsed idsA
          ([] ++ (⟨s2l "A ", s2l " b"⟩ : ParsedFlashcard) ::
            ([] ++ (⟨s2l " a", s2l "B"⟩ : ParsedFlashcard) :: [])) =
        buildFlashcardsFromParsed idsA
          ([] ++ (⟨s2l "A ", s2l " b"⟩ : ParsedFlashcard) :: ([] ++ [])) ∧
      ∀ parsed : List ParsedFlashcard,
        (buildFlashcardsFromParsed idsA parsed).map cardQA =
        (dedupeSpecFirstWins [] ((parsed.map trimPair).filter okPair)).map
          (fun p => (p.question, p.answer))) :=
  ⟨⟨by decide, by decide, by decide⟩,
    dedupe_first_wins idsA [] [] [] ⟨s2l "A ", s2l " b"⟩ ⟨s2l " a", s2l "B"⟩
      (by decide) (by decide) (by decide)⟩

/-! ## Claim C7: idempotence of deduplication -/

/-- C7: feeding the dedup step its own output (as parsed records) back
through the dedup step reproduces the same (question, answer) sequence, for
any ambient identifier supplies. -/
theorem dedupe_idempotent (ids₁ ids₂ : Nat → List Char)
    (parsed : List ParsedFlashcard) :
    (buildFlashcardsFromParsed ids₂
        ((buildFlashcardsFromParsed ids₁ parsed).map asParsed)).map cardQA =
      (buildFlashcardsFromParsed ids₁ parsed).map cardQA := by
  have hclean := buildGo_clean ids₁ parsed [] 0
  have hkeys := buildGo_keys ids₁ parsed [] 0
  exact buildGo_of_clean ids₂ (buildGo ids₁ [] 0 parsed) [] 0 hclean
    (fun key hk => by intro hmem; cases hmem) hkeys.2

/-! ## Claim C4 (amended): determinism up to ambient randomness and clock -/

theorem buildGo_ids_proj (ids₁ ids₂ : Nat → List Char) :
    ∀ (parsed : List ParsedFlashcard) (seen : List (List Char)) (k : Nat),
      (buildGo ids₁ seen k parsed).map cardQAL =
      (buildGo ids₂ seen k parsed).map cardQAL := by
  intro parsed
  induction parsed with
  | nil => intro seen k; rfl
  | cons item rest ih =>
    intro seen k
    rw [buildGo_cons, buildGo_cons]
    by_cases he : trim item.question = [] ∨ trim item.answer = []
    · rw [if_pos he, if_pos he]
      exact ih seen k
    · rw [if_neg he, if_neg he]
      by_cases hk : canonicalKey (trim item.question) (trim item.answer) ∈ seen
      · rw [if_pos hk, if_pos hk]
        exact ih seen k
      · rw [if_neg hk, if_neg hk]
        rw [List.map_cons, List.map_cons]
        congr 1
        exact ih _ _

theorem cardLines_congr :
    ∀ (cards₁ cards₂ : List Flashcard) (total i : Nat),
      cards₁.map cardQA = cards₂.map cardQA →
      cardLines total i cards₁ = cardLines total i cards₂ := by
  intro cards₁
  induction cards₁ with
  | nil =>
    intro cards₂ total i h
    cases cards₂ with
    | nil => rfl
    | cons c r => cases h
  | cons c rest ih =>
    intro cards₂ total i h
    cases cards₂ with
    | nil => cases h
    | cons c₂ rest₂ =>
      rw [List.map_cons, List.map_cons] at h
      have h1 : cardQA c = cardQA c₂ := (List.cons.injEq _ _ _ _ ▸ h).1
      have h2 : rest.map cardQA = rest₂.map cardQA := (List.cons.injEq _ _ _ _ ▸ h).2
      have hq : c.question = c₂.question := congrArg Prod.fst h1
      have ha : c.answer = c₂.answer := congrArg Prod.snd h1
      show wrapLongLine _ _ ++ wrapWithPrefix c.question _ _ ++
          wrapWithPrefix c.answer _ _ ++ _ ++ cardLines total (i + 1) rest = _
      rw [hq, ha, ih rest₂ total (i + 1) h2]
      rfl

theorem pdfBuildOf_congr (set₁ set₂ : FlashcardSet) (now : List Char)
    (hname : set₁.name = set₂.name)
    (hcards : set₁.cards.map cardQA = set₂.cards.map cardQA) :
    pdfBuildOf set₁ now = pdfBuildOf set₂ now := by
  have hlen : set₁.cards.length = set₂.cards.length := by
    have := congrArg List.length hcards
    simpa using this
  have hlines : linesFor set₁ now = linesFor set₂ now := by
    unfold linesFor headerTitleFor
    rw [hname, hlen, cardLines_congr set₁.cards set₂.cards _ _ hcards]
  have hcl : contentLinesFor set₁ now = contentLinesFor set₂ now := by
    unfold contentLinesFor
    rw [hlines]
  have hpg : pagesFor set₁ now = pagesFor set₂ now := by
    unfold pagesFor
    rw [hcl]
  have hao : allObjectsFor set₁ now = allObjectsFor set₂ now := by
    unfold allObjectsFor
    rw [hpg]
  have hemt : emittedFor set₁ now = emittedFor set₂ now := by
    unfold emittedFor
    rw [hao]
  have hxo : xrefOffsetFor set₁ now = xrefOffsetFor set₂ now := by
    unfold xrefOffsetFor
    rw [hemt]
  have hpt : pdfTextFor set₁ now = pdfTextFor set₂ now := by
    unfold pdfTextFor
    rw [hemt, hao, hxo]
  unfold pdfBuildOf
  rw [hao, hpg, hemt, hxo, hpt]

/-- C4 amended: the outputs are pure functions of the input plus the ambient
`createId()` randomness and clock reading; the card content (question,
answer, learned) is the same for any two identifier supplies, and the
encoder's output does not depend on card ids or learned flags at all — two
sets with equal names and equal (question, answer) content encode to the
same document for the same clock reading. -/
theorem tokenizer_encoder_content_deterministic (ids₁ ids₂ : Nat → List Char)
    (parsed : List ParsedFlashcard) (h : Bool) (set₁ set₂ : FlashcardSet)
    (now : List Char) (hname : set₁.name = set₂.name)
    (hcards : set₁.cards.map cardQA = set₂.cards.map cardQA) :
    (buildFlashcardsFromParsed ids₁ parsed).map cardQAL =
      (buildFlashcardsFromParsed ids₂ parsed).map cardQAL ∧
    createFlashcardsPdfBlob h set₁ now = createFlashcardsPdfBlob h set₂ now := by
  refine ⟨buildGo_ids_proj ids₁ ids₂ parsed [] 0, ?_⟩
  have hnil : set₁.cards = [] ↔ set₂.cards = [] := by
    constructor
    · intro hx
      rw [hx] at hcards
      exact List.map_eq_nil_iff.mp hcards.symm
    · intro hx
      rw [hx] at hcards
      exact List.map_eq_nil_iff.mp hcards
  unfold createFlashcardsPdfBlob
  by_cases hc : h = false ∨ set₁.cards = []
  · have hc₂ : h = false ∨ set₂.cards = [] := by
      rcases hc with h1 | h1
      · exact Or.inl h1
      · exact Or.inr (hnil.mp h1)
    rw [if_pos hc, if_pos hc₂]
  · have hc₂ : ¬(h = false ∨ set₂.cards = []) := by
      intro hx
      rcases hx with h1 | h1
      · exact hc (Or.inl h1)
      · exact hc (Or.inr (hnil.mpr h1))
    rw [if_neg hc, if_neg hc₂, pdfBuildOf_congr set₁ set₂ now hname hcards]

/-- Witness for C4 amended: two decks with equal content but different ids
and learned flags. -/
theorem tokenizer_encoder_content_deterministic_witness :
    ((⟨s2l "set1", s2l "Quiz", s2l "t0", [⟨s2l "id1", s2l "q", s2l "a", false⟩]⟩ :
        FlashcardSet).name =
      (⟨s2l "set2", s2l "Quiz", s2l "t1", [⟨s2l "zz", s2l "q", s2l "a", true⟩]⟩ :
        FlashcardSet).name ∧
     (⟨s2l "set1", s2l "Quiz", s2l "t0", [⟨s2l "id1", s2l "q", s2l "a", false⟩]⟩ :
        FlashcardSet).cards.map cardQA =
      (⟨s2l "set2", s2l "Quiz", s2l "t1", [⟨s2l "zz", s2l "q", s2l "a", true⟩]⟩ :
        FlashcardSet).cards.map cardQA) ∧
    ((buildFlashcardsFromParsed idsA [⟨s2l "q", s2l "a"⟩]).map cardQAL =
      (buildFlashcardsFromParsed idsB [⟨s2l "q", s2l "a"⟩]).map cardQAL ∧
     createFlashcardsPdfBlob true
        ⟨s2l "set1", s2l "Quiz", s2l "t0", [⟨s2l "id1", s2l "q", s2l "a", false⟩]⟩
        demoNow =
      createFlashcardsPdfBlob true
        ⟨s2l "set2", s2l "Quiz", s2l "t1", [⟨s2l "zz", s2l "q", s2l "a", true⟩]⟩
        demoNow) :=
  ⟨⟨by decide, by decide⟩,
    tokenizer_encoder_content_deterministic idsA idsB [⟨s2l "q", s2l "a"⟩] true
      ⟨s2l "set1", s2l "Quiz", s2l "t0", [⟨s2l "id1", s2l "q", s2l "a", false⟩]⟩
      ⟨s2l "set2", s2l "Quiz", s2l "t1", [⟨s2l "zz", s2l "q", s2l "a", true⟩]⟩
      demoNow (by decide) (by decide)⟩

/-! ## Lemmas: line wrapping -/

theorem breakGo_len {m : Nat} (hm : 1 ≤ m) :
    ∀ (fuel : Nat) (w : List Char), w.length ≤ fuel →
      ∀ seg ∈ breakGo fuel w m, seg.length ≤ m := by
  intro fuel
  induction fuel with
  | zero =>
    intro w hw seg hseg
    have : w = [] := List.length_eq_zero.mp (by omega)
    rw [this] at hseg
    have : seg = ([] : List Char) := by
      simpa [breakGo] using hseg
    rw [this]
    simp
  | succ fuel ih =>
    intro w hw seg hseg
    rw [show breakGo (fuel + 1) w m =
        (if w.length ≤ m then [w] else w.take m :: breakGo fuel (w.drop m) m)
      from rfl] at hseg
    by_cases h : w.length ≤ m
    · rw [if_pos h] at hseg
      simp at hseg
      rw [hseg]
      exact h
    · rw [if_neg h] at hseg
      rcases List.mem_cons.mp hseg with h1 | h1
      · rw [h1, List.length_take]
        omega
      · refine ih (w.drop m) ?_ seg h1
        rw [List.length_drop]
        omega

theorem breakWord_len {w : List Char} {m : Nat} (hm : 1 ≤ m) :
    ∀ seg ∈ breakWordIntoSegments w m, seg.length ≤ m :=
  breakGo_len hm w.length w le_rfl

theorem lastSegment_cases (segs : List (List Char)) :
    (segs.getLast?).getD [] ∈ segs ∨ (segs.getLast?).getD [] = ([] : List Char) := by
  cases h : segs.getLast? with
  | none => exact Or.inr rfl
  | some x =>
    left
    show (Option.some x).getD [] ∈ segs
    exact List.mem_of_getLast?_eq_some h

theorem segGo_len {m : Nat} (hm : 1 ≤ m) :
    ∀ (words lines : List (List Char)) (current : List Char),
      (∀ l ∈ lines, l.length ≤ m) → current.length ≤ m →
      ∀ l ∈ segGo m lines current words, l.length ≤ m := by
  intro words
  induction words with
  | nil =>
    intro lines current hlines hcur l hl
    rw [show segGo m lines current [] =
        (if current ≠ [] then lines ++ [current] else lines) from rfl] at hl
    by_cases h : current ≠ []
    · rw [if_pos h] at hl
      rcases List.mem_append.mp hl with h1 | h1
      · exact hlines l h1
      · simp at h1
        rw [h1]
        exact hcur
    · rw [if_neg h] at hl
      exact hlines l hl
  | cons word ws ih =>
    intro lines current hlines hcur l hl
    rw [show segGo m lines current (word :: ws) =
        (if word = [] then segGo m lines current ws
         else if current = [] then
           if word.length ≤ m then segGo m lines word ws
           else
             if (((breakWordIntoSegments word m).getLast?).getD []).length = m then
               segGo m (lines ++ (breakWordIntoSegments word m).dropLast ++
                 [((breakWordIntoSegments word m).getLast?).getD []]) [] ws
             else segGo m (lines ++ (breakWordIntoSegments word m).dropLast)
               (((breakWordIntoSegments word m).getLast?).getD []) ws
         else if current.length + 1 + word.length ≤ m then
           segGo m lines (current ++ ' ' :: word) ws
         else
           if word.length ≤ m then segGo m (lines ++ [current]) word ws
           else
             if (((breakWordIntoSegments word m).getLast?).getD []).length = m then
               segGo m (lines ++ [current] ++ (breakWordIntoSegments word m).dropLast ++
                 [((breakWordIntoSegments word m).getLast?).getD []]) [] ws
             else segGo m (lines ++ [current] ++ (breakWordIntoSegments word m).dropLast)
               (((breakWordIntoSegments word m).getLast?).getD []) ws)
      from rfl] at hl
    have hseg : ∀ seg ∈ breakWordIntoSegments word m, seg.length ≤ m :=
      breakWord_len hm
    have hlast : (((breakWordIntoSegments word m).getLast?).getD []).length ≤ m := by
      rcases lastSegment_cases (breakWordIntoSegments word m) with h | h
      · exact hseg _ h
      · rw [h]
        simp
    have hdrop : ∀ seg ∈ (breakWordIntoSegments word m).dropLast, seg.length ≤ m :=
      fun seg hs => hseg seg ((List.dropLast_sublist _).subset hs)
    by_cases h0 : word = []
    · rw [if_pos h0] at hl
      exact ih lines current hlines hcur l hl
    · rw [if_neg h0] at hl
      by_cases h1 : current = []
      · rw [if_pos h1] at hl
        by_cases h2 : word.length ≤ m
        · rw [if_pos h2] at hl
          exact ih lines word hlines h2 l hl
        · rw [if_neg h2] at hl
          by_cases h3 : (((breakWordIntoSegments word m).getLast?).getD []).length = m
          · rw [if_pos h3] at hl
            refine ih _ [] ?_ (by simp) l hl
            intro x hx
            rcases List.mem_append.mp hx with h4 | h4
            · rcases List.mem_append.mp h4 with h5 | h5
              · exact hlines x h5
              · exact hdrop x h5
            · simp at h4
              rw [h4]
              exact hlast
          · rw [if_neg h3] at hl
            refine ih _ _ ?_ hlast l hl
            intro x hx
            rcases List.mem_append.mp hx with h4 | h4
            · exact hlines x h4
            · exact hdrop x h4
      · rw [if_neg h1] at hl
        by_cases h2 : current.length + 1 + word.length ≤ m
        · rw [if_pos h2] at hl
          refine ih lines _ hlines ?_ l hl
          simp
          omega
        · rw [if_neg h2] at hl
          by_cases h3 : word.length ≤ m
          · rw [if_pos h3] at hl
            refine ih _ word ?_ h3 l hl
            intro x hx
            rcases List.mem_append.mp hx with h4 | h4
            · exact hlines x h4
            · simp at h4
              rw [h4]
              exact hcur
          · rw [if_neg h3] at hl
            by_cases h4 : (((breakWordIntoSegments word m).getLast?).getD []).length = m
            · rw [if_pos h4] at hl
              refine ih _ [] ?_ (by simp) l hl
              intro x hx
              rcases List.mem_append.mp hx with h5 | h5
              · rcases List.mem_append.mp h5 with h6 | h6
                · rcases List.mem_append.mp h6 with h7 | h7
                  · exact hlines x h7
                  · simp at h7
                    rw [h7]
                    exact hcur
                · exact hdrop x h6
              · simp at h5
                rw [h5]
                exact hlast
            · rw [if_neg h4] at hl
              refine ih _ _ ?_ hlast l hl
              intro x hx
              rcases List.mem_append.mp hx with h5 | h5
              · rcases List.mem_append.mp h5 with h6 | h6
                · exact hlines x h6
                · simp at h6
                  rw [h6]
                  exact hcur
              · exact hdrop x h5

theorem collapseGo_all_ws :
    ∀ (v : List Char), (∀ c ∈ v, isWsChar c) →
      collapseGo true v = [] ∧
      (collapseGo false v = [] ∨ collapseGo false v = [' ']) := by
  intro v
  induction v with
  | nil => exact fun _ => ⟨rfl, Or.inl rfl⟩
  | cons c rest ih =>
    intro h
    have hc : isWsChar c := h c (by simp)
    have hrest := ih (fun d hd => h d (by simp [hd]))
    constructor
    · have he : collapseGo true (c :: rest) = collapseGo true rest := by
        simp [collapseGo, hc]
      rw [he]
      exact hrest.1
    · have he : collapseGo false (c :: rest) = ' ' :: collapseGo true rest := by
        simp [collapseGo, hc]
      rw [he, hrest.1]
      exact Or.inr rfl

theorem sanitize_all_ws {v : List Char} (h : ∀ c ∈ v, isWsChar c) :
    sanitizeTextValue v = [] := by
  unfold sanitizeTextValue collapseWs
  rcases (collapseGo_all_ws v h).2 with h1 | h1
  · rw [h1]
    rfl
  · rw [h1]
    decide

theorem trimRight_length_le (s : List Char) : (trimRight s).length ≤ s.length :=
  (trimRight_isPre s).length_le

/-! ## Claim C10: wrapped lines respect the width budget -/

/-- C10: every line produced by `wrapLongLine` has length at most `maxChars`
(the budget is positive at every call site); for every label shorter than
`maxChars`, every line of `wrapWithPrefix` — the labelled first line and the
indented continuation lines — has length at most `maxChars`; and
`wrapLongLine` of an empty or whitespace-only string is exactly one empty
line, never an empty list. -/
theorem wrap_width (value pre : List Char) (maxChars : Nat)
    (hm : 1 ≤ maxChars) (hp : pre.length < maxChars) :
    (∀ l ∈ wrapLongLine value maxChars, l.length ≤ maxChars) ∧
    (∀ l ∈ wrapWithPrefix value pre maxChars, l.length ≤ maxChars) ∧
    ((∀ c ∈ value, isWsChar c) → wrapLongLine value maxChars = [[]]) := by
  refine ⟨?_, ?_, ?_⟩
  · intro l hl
    unfold wrapLongLine at hl
    by_cases h : sanitizeTextValue value = []
    · rw [if_pos h] at hl
      simp at hl
      rw [hl]
      simp
    · rw [if_neg h] at hl
      unfold segmentSanitizedText at hl
      by_cases h2 : sanitizeTextValue value = []
      · exact absurd h2 h
      · rw [if_neg h2] at hl
        exact segGo_len hm _ [] [] (by simp) (by simp) l hl
  · intro l hl
    unfold wrapWithPrefix at hl
    by_cases h : sanitizeTextValue value = []
    · rw [if_pos h] at hl
      simp at hl
      rw [hl]
      calc (trimRight pre).length ≤ pre.length := trimRight_length_le pre
        _ ≤ maxChars := by omega
    · rw [if_neg h] at hl
      have havail : max 1 (maxChars - pre.length) = maxChars - pre.length := by
        omega
      have hseg : ∀ seg ∈ segmentSanitizedText (sanitizeTextValue value)
          (max 1 (maxChars - pre.length)), seg.length ≤ maxChars - pre.length := by
        intro seg hs
        unfold segmentSanitizedText at hs
        rw [if_neg h] at hs
        have := segGo_len (m := max 1 (maxChars - pre.length)) (by omega) _ [] []
          (by simp) (by simp) seg hs
        omega
      cases hsegs : segmentSanitizedText (sanitizeTextValue value)
          (max 1 (maxChars - pre.length)) with
      | nil =>
        rw [hsegs] at hl
        cases hl
      | cons seg rest =>
        rw [hsegs] at hl
        rcases List.mem_cons.mp hl with h1 | h1
        · rw [h1]
          have := hseg seg (by rw [hsegs]; simp)
          simp
          omega
        · rw [List.mem_map] at h1
          obtain ⟨seg2, hs2, hs2e⟩ := h1
          rw [← hs2e]
          have := hseg seg2 (by rw [hsegs]; simp [hs2])
          simp
          omega
  · intro hws
    unfold wrapLongLine
    rw [if_pos (sanitize_all_ws hws)]

/-- Witness for C10 at budget 9 and the label `Q: `. -/
theorem wrap_width_witness :
    (1 ≤ 9 ∧ (s2l "Q: ").length < 9) ∧
    ((∀ l ∈ wrapLongLine (s2l "hello world") 9, l.length ≤ 9) ∧
     (∀ l ∈ wrapWithPrefix (s2l "hello world") (s2l "Q: ") 9, l.length ≤ 9) ∧
     ((∀ c ∈ s2l "hello world", isWsChar c) →
       wrapLongLine (s2l "hello world") 9 = [[]])) :=
  ⟨⟨by decide, by decide⟩,
    wrap_width (s2l "hello world") (s2l "Q: ") 9 (by decide) (by decide)⟩

/-! ## Lemmas: object emission and offsets -/

theorem emitObjects_spec :
    ∀ (objs : List PdfObj) (pdf : List Char) (offsets : List (Nat × Nat)),
      emitObjects objs pdf offsets =
        (pdf ++ concatAll (objs.map objBytes), offsets ++ offsAux objs pdf.length) := by
  intro objs
  induction objs with
  | nil =>
    intro pdf offsets
    show (pdf, offsets) = _
    simp [concatAll, offsAux]
  | cons o rest ih =>
    intro pdf offsets
    show emitObjects rest (pdf ++ objBytes o) (offsets ++ [(o.id, pdf.length)]) = _
    rw [ih]
    simp [concatAll, offsAux, List.append_assoc, List.length_append]

theorem objBytes_split (o : PdfObj) :
    objBytes o = objHeader o.id ++ ('\n' :: (o.content ++ s2l "endobj\n")) := by
  unfold objBytes objHeader
  have hsplit : s2l " 0 obj\n" = s2l " 0 obj" ++ ['\n'] := rfl
  rw [hsplit]
  simp [List.append_assoc]

theorem isPrefix_append_right {p a b : List Char} (h : List.IsPrefix p a) :
    List.IsPrefix p (a ++ b) := by
  obtain ⟨t, ht⟩ := h
  exact ⟨t ++ b, by rw [← ht]; simp [List.append_assoc]⟩

theorem offsAux_header :
    ∀ (objs : List PdfObj) (pre suf : List Char),
      ∀ e ∈ offsAux objs pre.length,
        List.IsPrefix (objHeader e.1)
          ((pre ++ concatAll (objs.map objBytes) ++ suf).drop e.2) := by
  intro objs
  induction objs with
  | nil =>
    intro pre suf e he
    cases he
  | cons o rest ih =>
    intro pre suf e he
    rcases List.mem_cons.mp he with h1 | h1
    · rw [h1]
      have hd : (pre ++ concatAll ((o :: rest).map objBytes) ++ suf).drop pre.length =
          objBytes o ++ (concatAll (rest.map objBytes) ++ suf) := by
        rw [List.map_cons]
        show (pre ++ (objBytes o ++ concatAll (rest.map objBytes)) ++ suf).drop
          pre.length = _
        rw [List.append_assoc, List.drop_left]
        rw [List.append_assoc]
      show List.IsPrefix (objHeader o.id) _
      rw [hd, objBytes_split, List.append_assoc]
      exact List.prefix_append _ _
    · have hmem : e ∈ offsAux rest (pre ++ objBytes o).length := by
        rw [List.length_append]
        exact h1
      have := ih (pre ++ objBytes o) suf e hmem
      have hre : (pre ++ objBytes o) ++ concatAll (rest.map objBytes) ++ suf =
          pre ++ concatAll ((o :: rest).map objBytes) ++ suf := by
        rw [List.map_cons]
        show _ = pre ++ (objBytes o ++ concatAll (rest.map objBytes)) ++ suf
        simp [List.append_assoc]
      rwa [hre] at this

/-! ## Lemmas: ASCII character budget -/

theorem allAscii_append {a b : List Char} (ha : allAscii a) (hb : allAscii b) :
    allAscii (a ++ b) := by
  intro c hc
  rcases List.mem_append.mp hc with h | h
  · exact ha c h
  · exact hb c h

theorem allAscii_concatAll {L : List (List Char)} (h : ∀ l ∈ L, allAscii l) :
    allAscii (concatAll L) := by
  induction L with
  | nil => intro c hc; cases hc
  | cons x xs ih =>
    exact allAscii_append (h x (by simp))
      (ih (fun l hl => h l (List.mem_cons_of_mem _ hl)))

theorem allAscii_joinSep {sep : List Char} (hs : allAscii sep) :
    ∀ {L : List (List Char)}, (∀ l ∈ L, allAscii l) → allAscii (joinSep sep L) := by
  intro L
  induction L with
  | nil => intro _ c hc; cases hc
  | cons x xs ih =>
    intro h
    cases xs with
    | nil =>
      show allAscii x
      exact h x (by simp)
    | cons y ys =>
      rw [joinSep_cons₂]
      exact allAscii_append (allAscii_append (h x (by simp)) hs)
        (ih (fun l hl => h l (List.mem_cons_of_mem _ hl)))

theorem digitChar_lt {n : Nat} (h : n < 10) : (digitChar n).toNat < 128 := by
  interval_cases n <;> decide

theorem allAscii_natToCharsGo : ∀ (fuel n : Nat), allAscii (natToCharsGo fuel n) := by
  intro fuel
  induction fuel with
  | zero =>
    intro n c hc
    simp only [natToCharsGo] at hc
    simp at hc
    rw [hc]
    exact digitChar_lt (Nat.mod_lt _ (by omega))
  | succ fuel ih =>
    intro n c hc
    rw [show natToCharsGo (fuel + 1) n =
        (if n < 10 then [digitChar n]
         else natToCharsGo fuel (n / 10) ++ [digitChar (n % 10)]) from rfl] at hc
    by_cases h : n < 10
    · rw [if_pos h] at hc
      simp at hc
      rw [hc]
      exact digitChar_lt h
    · rw [if_neg h] at hc
      rcases List.mem_append.mp hc with h1 | h1
      · exact ih _ c h1
      · simp at h1
        rw [h1]
        exact digitChar_lt (Nat.mod_lt _ (by omega))

theorem allAscii_natToChars (n : Nat) : allAscii (natToChars n) :=
  allAscii_natToCharsGo n n

theorem allAscii_padStart {w : Nat} {c : Char} {s : List Char}
    (hc : c.toNat < 128) (hs : allAscii s) : allAscii (padStart w c s) := by
  intro d hd
  rcases List.mem_append.mp hd with h | h
  · rw [List.eq_of_mem_replicate h]
    exact hc
  · exact hs d h

theorem collapseGo_chars :
    ∀ (v : List Char) (b : Bool), ∀ c ∈ collapseGo b v, c = ' ' ∨ c ∈ v := by
  intro v
  induction v with
  | nil => intro b c hc; cases hc
  | cons d rest ih =>
    intro b c hc
    by_cases hd : isWsChar d
    · by_cases hb : b
      · rw [hb] at hc
        have he : collapseGo true (d :: rest) = collapseGo true rest := by
          simp [collapseGo, hd]
        rw [he] at hc
        rcases ih true c hc with h | h
        · exact Or.inl h
        · exact Or.inr (List.mem_cons_of_mem _ h)
      · have hb' : b = false := by
          cases b
          · rfl
          · exact absurd rfl hb
        rw [hb'] at hc
        have he : collapseGo false (d :: rest) = ' ' :: collapseGo true rest := by
          simp [collapseGo, hd]
        rw [he] at hc
        rcases List.mem_cons.mp hc with h | h
        · exact Or.inl h
        · rcases ih true c h with h2 | h2
          · exact Or.inl h2
          · exact Or.inr (List.mem_cons_of_mem _ h2)
    · have he : collapseGo b (d :: rest) = d :: collapseGo false rest := by
        simp [collapseGo, hd]
      rw [he] at hc
      rcases List.mem_cons.mp hc with h | h
      · exact Or.inr (h ▸ List.mem_cons_self _ _)
      · rcases ih false c h with h2 | h2
        · exact Or.inl h2
        · exact Or.inr (List.mem_cons_of_mem _ h2)

theorem sanitize_printable {v : List Char} :
    ∀ c ∈ sanitizeTextValue v, printableChar c := by
  intro c hc
  unfold sanitizeTextValue at hc
  have hc2 := mem_trim hc
  rw [List.mem_map] at hc2
  obtain ⟨d, hd, hde⟩ := hc2
  unfold toPrintable at hde
  by_cases h : 32 ≤ d.toNat ∧ d.toNat ≤ 126
  · rw [if_pos h] at hde
    rw [← hde]
    exact h
  · rw [if_neg h] at hde
    rw [← hde]
    exact ⟨by decide, by decide⟩

theorem printable_ascii {c : Char} (h : printableChar c) : c.toNat < 128 := by
  obtain ⟨_, h2⟩ := h
  omega

theorem splitCh_chars {sep : Char} :
    ∀ (s l : List Char), l ∈ splitCh sep s → ∀ c ∈ l, c ∈ s := by
  intro s
  induction s with
  | nil =>
    intro l hl c hc
    have : l = [] := by simpa [splitCh] using hl
    rw [this] at hc
    cases hc
  | cons d rest ih =>
    intro l hl c hc
    show c ∈ d :: rest
    by_cases hd : d = sep
    · have he : splitCh sep (d :: rest) = [] :: splitCh sep rest := by
        rw [splitCh, if_pos hd]
      rw [he] at hl
      rcases List.mem_cons.mp hl with h | h
      · rw [h] at hc
        cases hc
      · exact List.mem_cons_of_mem _ (ih l h c hc)
    · cases hsp : splitCh sep rest with
      | nil =>
        have he : splitCh sep (d :: rest) = [[d]] := by
          rw [splitCh, if_neg hd, hsp]

        rw [he] at hl
        simp at hl
        rw [hl] at hc
        simp at hc
        simp [hc]
      | cons l0 ls =>
        have he : splitCh sep (d :: rest) = (d :: l0) :: ls := by
          rw [splitCh, if_neg hd, hsp]
        rw [he] at hl
        rcases List.mem_cons.mp hl with h | h
        · rw [h] at hc
          rcases List.mem_cons.mp hc with h2 | h2
          · simp [h2]
          · exact List.mem_cons_of_mem _ (ih l0 (by rw [hsp]; simp) c h2)
        · refine List.mem_cons_of_mem _ (ih l ?_ c hc)
          rw [hsp]
          exact List.mem_cons_of_mem _ h

theorem breakGo_chars :
    ∀ (fuel : Nat) (w : List Char) (m : Nat),
      ∀ seg ∈ breakGo fuel w m, ∀ c ∈ seg, c ∈ w := by
  intro fuel
  induction fuel with
  | zero =>
    intro w m seg hseg c hc
    have : seg = w := by simpa [breakGo] using hseg
    exact this ▸ hc
  | succ fuel ih =>
    intro w m seg hseg c hc
    rw [show breakGo (fuel + 1) w m =
        (if w.length ≤ m then [w] else w.take m :: breakGo fuel (w.drop m) m)
      from rfl] at hseg
    by_cases h : w.length ≤ m
    · rw [if_pos h] at hseg
      simp at hseg
      exact hseg ▸ hc
    · rw [if_neg h] at hseg
      rcases List.mem_cons.mp hseg with h1 | h1
      · exact List.take_subset _ _ (h1 ▸ hc)
      · exact List.drop_subset _ _ (ih (w.drop m) m seg h1 c hc)

theorem mem_concatAll_exists {α : Type} {c : α} {L : List (List α)}
    (hc : c ∈ concatAll L) : ∃ l ∈ L, c ∈ l := by
  induction L with
  | nil => cases hc
  | cons x xs ih =>
    rcases List.mem_append.mp hc with h | h
    · exact ⟨x, by simp, h⟩
    · obtain ⟨l, hl, hcl⟩ := ih h
      exact ⟨l, List.mem_cons_of_mem _ hl, hcl⟩

theorem segGo_chars (P : Char → Prop) (hsp : P ' ') (m : Nat) :
    ∀ (words lines : List (List Char)) (current : List Char),
      (∀ l ∈ lines, ∀ c ∈ l, P c) → (∀ c ∈ current, P c) →
      (∀ w ∈ words, ∀ c ∈ w, P c) →
      ∀ l ∈ segGo m lines current words, ∀ c ∈ l, P c := by
  intro words
  induction words with
  | nil =>
    intro lines current hlines hcur hws l hl
    rw [show segGo m lines current [] =
        (if current ≠ [] then lines ++ [current] else lines) from rfl] at hl
    by_cases h : current ≠ []
    · rw [if_pos h] at hl
      rcases List.mem_append.mp hl with h1 | h1
      · exact hlines l h1
      · simp at h1
        exact h1 ▸ hcur
    · rw [if_neg h] at hl
      exact hlines l hl
  | cons word ws ih =>
    intro lines current hlines hcur hws l hl
    rw [show segGo m lines current (word :: ws) =
        (if word = [] then segGo m lines current ws
         else if current = [] then
           if word.length ≤ m then segGo m lines word ws
           else
             if (((breakWordIntoSegments word m).getLast?).getD []).length = m then
               segGo m (lines ++ (breakWordIntoSegments word m).dropLast ++
                 [((breakWordIntoSegments word m).getLast?).getD []]) [] ws
             else segGo m (lines ++ (breakWordIntoSegments word m).dropLast)
               (((breakWordIntoSegments word m).getLast?).getD []) ws
         else if current.length + 1 + word.length ≤ m then
           segGo m lines (current ++ ' ' :: word) ws
         else
           if word.length ≤ m then segGo m (lines ++ [current]) word ws
           else
             if (((breakWordIntoSegments word m).getLast?).getD []).length = m then
               segGo m (lines ++ [current] ++ (breakWordIntoSegments word m).dropLast ++
                 [((breakWordIntoSegments word m).getLast?).getD []]) [] ws
             else segGo m (lines ++ [current] ++ (breakWordIntoSegments word m).dropLast)
               (((breakWordIntoSegments word m).getLast?).getD []) ws)
      from rfl] at hl
    have hword : ∀ c ∈ word, P c := hws word (by simp)
    have hws' : ∀ w ∈ ws, ∀ c ∈ w, P c :=
      fun w hw => hws w (List.mem_cons_of_mem _ hw)
    have hsegchars : ∀ seg ∈ breakWordIntoSegments word m, ∀ c ∈ seg, P c :=
      fun seg hs c hc => hword c (breakGo_chars word.length word m seg hs c hc)
    have hlastchars : ∀ c ∈ ((breakWordIntoSegments word m).getLast?).getD [], P c := by
      rcases lastSegment_cases (breakWordIntoSegments word m) with h | h
      · exact hsegchars _ h
      · rw [h]
        intro c hc
        cases hc
    have hdropchars : ∀ seg ∈ (breakWordIntoSegments word m).dropLast, ∀ c ∈ seg, P c :=
      fun seg hs => hsegchars seg ((List.dropLast_sublist _).subset hs)
    by_cases h0 : word = []
    · rw [if_pos h0] at hl
      exact ih lines current hlines hcur hws' l hl
    · rw [if_neg h0] at hl
      by_cases h1 : current = []
      · rw [if_pos h1] at hl
        by_cases h2 : word.length ≤ m
        · rw [if_pos h2] at hl
          exact ih lines word hlines hword hws' l hl
        · rw [if_neg h2] at hl
          by_cases h3 : (((breakWordIntoSegments word m).getLast?).getD []).length = m
          · rw [if_pos h3] at hl
            refine ih _ [] ?_ (by intro c hc; cases hc) hws' l hl
            intro x hx
            rcases List.mem_append.mp hx with h4 | h4
            · rcases List.mem_append.mp h4 with h5 | h5
              · exact hlines x h5
              · exact hdropchars x h5
            · simp at h4
              exact h4 ▸ hlastchars
          · rw [if_neg h3] at hl
            refine ih _ _ ?_ hlastchars hws' l hl
            intro x hx
            rcases List.mem_append.mp hx with h4 | h4
            · exact hlines x h4
            · exact hdropchars x h4
      · rw [if_neg h1] at hl
        by_cases h2 : current.length + 1 + word.length ≤ m
        · rw [if_pos h2] at hl
          refine ih lines _ hlines ?_ hws' l hl
          intro c hc
          rcases List.mem_append.mp hc with h3 | h3
          · exact hcur c h3
          · rcases List.mem_cons.mp h3 with h4 | h4
            · exact h4 ▸ hsp
            · exact hword c h4
        · rw [if_neg h2] at hl
          by_cases h3 : word.length ≤ m
          · rw [if_pos h3] at hl
            refine ih _ word ?_ hword hws' l hl
            intro x hx
            rcases List.mem_append.mp hx with h4 | h4
            · exact hlines x h4
            · simp at h4
              exact h4 ▸ hcur
          · rw [if_neg h3] at hl
            by_cases h4 : (((breakWordIntoSegments word m).getLast?).getD []).length = m
            · rw [if_pos h4] at hl
              refine ih _ [] ?_ (by intro c hc; cases hc) hws' l hl
              intro x hx
              rcases List.mem_append.mp hx with h5 | h5
              · rcases List.mem_append.mp h5 with h6 | h6
                · rcases List.mem_append.mp h6 with h7 | h7
                  · exact hlines x h7
                  · simp at h7
                    exact h7 ▸ hcur
                · exact hdropchars x h6
              · simp at h5
                exact h5 ▸ hlastchars
            · rw [if_neg h4] at hl
              refine ih _ _ ?_ hlastchars hws' l hl
              intro x hx
              rcases List.mem_append.mp hx with h5 | h5
              · rcases List.mem_append.mp h5 with h6 | h6
                · exact hlines x h6
                · simp at h6
                  exact h6 ▸ hcur
              · exact hdropchars x h5

theorem wrapLongLine_chars {v : List Char} {m : Nat} :
    ∀ l ∈ wrapLongLine v m, ∀ c ∈ l, printableChar c := by
  intro l hl
  unfold wrapLongLine at hl
  by_cases h : sanitizeTextValue v = []
  · rw [if_pos h] at hl
    simp at hl
    rw [hl]
    intro c hc
    cases hc
  · rw [if_neg h] at hl
    unfold segmentSanitizedText at hl
    rw [if_neg h] at hl
    refine segGo_chars printableChar (by decide) m _ [] []
      (by intro x hx; cases hx) (by intro c hc; cases hc) ?_ l hl
    intro w hw c hc
    exact sanitize_printable c (splitCh_chars _ w hw c hc)

theorem wrapWithPrefix_chars {v pre : List Char} {m : Nat}
    (hpre : ∀ c ∈ pre, printableChar c) :
    ∀ l ∈ wrapWithPrefix v pre m, ∀ c ∈ l, printableChar c := by
  intro l hl
  unfold wrapWithPrefix at hl
  by_cases h : sanitizeTextValue v = []
  · rw [if_pos h] at hl
    simp at hl
    rw [hl]
    intro c hc
    exact hpre c (mem_trimRight hc)
  · rw [if_neg h] at hl
    have hsegs : ∀ seg ∈ segmentSanitizedText (sanitizeTextValue v)
        (max 1 (m - pre.length)), ∀ c ∈ seg, printableChar c := by
      intro seg hs
      unfold segmentSanitizedText at hs
      rw [if_neg h] at hs
      refine segGo_chars printableChar (by decide) _ _ [] []
        (by intro x hx; cases hx) (by intro c hc; cases hc) ?_ seg hs
      intro w hw c hc
      exact sanitize_printable c (splitCh_chars _ w hw c hc)
    cases hsp : segmentSanitizedText (sanitizeTextValue v)
        (max 1 (m - pre.length)) with
    | nil =>
      rw [hsp] at hl
      cases hl
    | cons seg rest =>
      rw [hsp] at hl
      rcases List.mem_cons.mp hl with h1 | h1
      · rw [h1]
        intro c hc
        rcases List.mem_append.mp hc with h2 | h2
        · exact hpre c h2
        · exact hsegs seg (by rw [hsp]; simp) c h2
      · rw [List.mem_map] at h1
        obtain ⟨seg2, hs2, hs2e⟩ := h1
        rw [← hs2e]
        intro c hc
        rcases List.mem_append.mp hc with h2 | h2
        · rw [List.eq_of_mem_replicate h2]
          decide
        · exact hsegs seg2 (by rw [hsp]; simp [hs2]) c h2

theorem cardLines_chars :
    ∀ (cards : List Flashcard) (total i : Nat),
      ∀ l ∈ cardLines total i cards, ∀ c ∈ l, printableChar c := by
  intro cards
  induction cards with
  | nil =>
    intro total i l hl
    cases hl
  | cons card rest ih =>
    intro total i l hl
    show ∀ c ∈ l, printableChar c
    rw [show cardLines total i (card :: rest) =
        wrapLongLine (s2l "Card " ++ natToChars (i + 1)) PDF_MAX_LINE_CHARS ++
        wrapWithPrefix card.question (s2l "Q: ") PDF_MAX_LINE_CHARS ++
        wrapWithPrefix card.answer (s2l "A: ") PDF_MAX_LINE_CHARS ++
        (if i < total - 1 then [([] : List Char)] else []) ++
        cardLines total (i + 1) rest from rfl] at hl
    rcases List.mem_append.mp hl with h1 | h1
    · rcases List.mem_append.mp h1 with h2 | h2
      · rcases List.mem_append.mp h2 with h3 | h3
        · rcases List.mem_append.mp h3 with h4 | h4
          · exact wrapLongLine_chars l h4
          · exact wrapWithPrefix_chars (by decide) l h4
        · exact wrapWithPrefix_chars (by decide) l h3
      · by_cases hb : i < total - 1
        · rw [if_pos hb] at h2
          simp at h2
          rw [h2]
          intro c hc
          cases hc
        · rw [if_neg hb] at h2
          cases h2
    · exact ih total (i + 1) l h1

theorem linesFor_chars (set : FlashcardSet) (now : List Char) :
    ∀ l ∈ linesFor set now, ∀ c ∈ l, printableChar c := by
  intro l hl
  unfold linesFor at hl
  rcases List.mem_append.mp hl with h1 | h1
  · rcases List.mem_append.mp h1 with h2 | h2
    · rcases List.mem_append.mp h2 with h3 | h3
      · exact wrapLongLine_chars l h3
      · exact wrapLongLine_chars l h3
    · simp at h2
      rw [h2]
      intro c hc
      cases hc
  · exact cardLines_chars set.cards _ 0 l h1

theorem contentLinesFor_chars (set : FlashcardSet) (now : List Char) :
    ∀ l ∈ contentLinesFor set now, ∀ c ∈ l, printableChar c := by
  intro l hl
  unfold contentLinesFor at hl
  by_cases h : (linesFor set now).length > 0
  · rw [if_pos h] at hl
    exact linesFor_chars set now l hl
  · rw [if_neg h] at hl
    simp at hl
    rw [hl]
    decide

theorem pagesFor_chars (set : FlashcardSet) (now : List Char) :
    ∀ pg ∈ pagesFor set now, ∀ l ∈ pg, ∀ c ∈ l, printableChar c := by
  intro pg hpg l hl
  unfold pagesFor at hpg
  by_cases h : paginate PDF_LINES_PER_PAGE (contentLinesFor set now) = []
  · rw [if_pos h] at hpg
    simp at hpg
    rw [hpg] at hl
    simp at hl
    rw [hl]
    decide
  · rw [if_neg h] at hpg
    have hc : l ∈ concatAll (paginate PDF_LINES_PER_PAGE (contentLinesFor set now)) :=
      mem_concatAll hpg hl
    have hj : concatAll (paginate PDF_LINES_PER_PAGE (contentLinesFor set now)) =
        contentLinesFor set now := by
      have := pagGo_join PDF_LINES_PER_PAGE (contentLinesFor set now) []
      simpa using this
    rw [hj] at hc
    exact contentLinesFor_chars set now l hc

theorem escapePdf_chars {v : List Char} :
    ∀ c ∈ escapePdfText v, c = '\\' ∨ c ∈ v := by
  intro c hc
  unfold escapePdfText at hc
  obtain ⟨piece, hp, hcp⟩ := mem_concatAll_exists hc
  rw [List.mem_map] at hp
  obtain ⟨d, hd, hde⟩ := hp
  rw [← hde] at hcp
  unfold escapePdfChar at hcp
  by_cases h1 : d = '\\'
  · rw [if_pos h1] at hcp
    simp at hcp
    exact Or.inl hcp
  · rw [if_neg h1] at hcp
    by_cases h2 : d = '('
    · rw [if_pos h2] at hcp
      rcases List.mem_cons.mp hcp with h | h
      · exact Or.inl h
      · simp at h
        refine Or.inr ?_
        rw [h, ← h2]
        exact hd
    · rw [if_neg h2] at hcp
      by_cases h3 : d = ')'
      · rw [if_pos h3] at hcp
        rcases List.mem_cons.mp hcp with h | h
        · exact Or.inl h
        · simp at h
          refine Or.inr ?_
          rw [h, ← h3]
          exact hd
      · rw [if_neg h3] at hcp
        simp at hcp
        exact Or.inr (hcp ▸ hd)

theorem tj_line_ascii {l : List Char} (hl : ∀ c ∈ l, printableChar c) :
    allAscii (s2l "(" ++ escapePdfText l ++ s2l ") Tj") := by
  refine allAscii_append (allAscii_append (by decide) ?_) (by decide)
  intro c hc
  rcases escapePdf_chars c hc with h | h
  · rw [h]
    decide
  · exact printable_ascii (hl c h)

theorem tjParts_ascii :
    ∀ (L : List (List Char)), (∀ l ∈ L, ∀ c ∈ l, printableChar c) →
      ∀ p ∈ tjParts L, allAscii p := by
  intro L
  induction L with
  | nil =>
    intro _ p hp
    cases hp
  | cons l rest ih =>
    intro h p hp
    cases rest with
    | nil =>
      have : p = s2l "(" ++ escapePdfText l ++ s2l ") Tj" := by
        simpa [tjParts] using hp
      rw [this]
      exact tj_line_ascii (h l (by simp))
    | cons l2 rest2 =>
      rw [show tjParts (l :: l2 :: rest2) =
          (s2l "(" ++ escapePdfText l ++ s2l ") Tj") :: s2l "T*" ::
            tjParts (l2 :: rest2) from rfl] at hp
      rcases List.mem_cons.mp hp with h1 | h1
      · rw [h1]
        exact tj_line_ascii (h l (by simp))
      · rcases List.mem_cons.mp h1 with h2 | h2
        · rw [h2]
          decide
        · exact ih (fun x hx => h x (List.mem_cons_of_mem _ hx)) p h2

theorem streamBody_ascii {L : List (List Char)}
    (hL : ∀ l ∈ L, ∀ c ∈ l, printableChar c) : allAscii (streamBodyFor L) := by
  unfold streamBodyFor
  refine allAscii_append (allAscii_joinSep (by decide) ?_) (by decide)
  intro p hp
  rcases List.mem_append.mp hp with h1 | h1
  · rcases List.mem_append.mp h1 with h2 | h2
    · simp only [List.mem_cons, List.not_mem_nil, or_false] at h2
      rcases h2 with h | h | h | h
      · rw [h]; decide
      · rw [h]; decide
      · rw [h]; decide
      · rw [h]; decide
    · exact tjParts_ascii L hL p h2
  · simp at h1
    rw [h1]
    decide

theorem contentStream_ascii {L : List (List Char)}
    (hL : ∀ l ∈ L, ∀ c ∈ l, printableChar c) : allAscii (contentStreamFor L) := by
  unfold contentStreamFor
  refine allAscii_append (allAscii_append (allAscii_append (allAscii_append
    (by decide) (allAscii_natToChars _)) (by decide)) (streamBody_ascii hL))
    (by decide)

theorem pageContent_ascii (cid : Nat) : allAscii (pageContentFor cid) := by
  unfold pageContentFor
  refine allAscii_append (allAscii_append (by decide) (allAscii_natToChars _))
    (by decide)

theorem mkObjs_ascii :
    ∀ (pgs : List (List (List Char))) (pid cid : Nat),
      (∀ pg ∈ pgs, ∀ l ∈ pg, ∀ c ∈ l, printableChar c) →
      (∀ o ∈ (mkObjs pid cid pgs).1, allAscii o.content) ∧
      (∀ o ∈ (mkObjs pid cid pgs).2, allAscii o.content) := by
  intro pgs
  induction pgs with
  | nil =>
    intro pid cid _
    exact ⟨fun o ho => absurd ho (by simp [mkObjs]),
      fun o ho => absurd ho (by simp [mkObjs])⟩
  | cons pg rest ih =>
    intro pid cid h
    have hrec := ih (pid + 1) (cid + 1)
      (fun p hp => h p (List.mem_cons_of_mem _ hp))
    constructor
    · intro o ho
      rcases List.mem_cons.mp ho with h1 | h1
      · rw [h1]
        exact pageContent_ascii cid
      · exact hrec.1 o h1
    · intro o ho
      rcases List.mem_cons.mp ho with h1 | h1
      · rw [h1]
        exact contentStream_ascii (h pg (by simp))
      · exact hrec.2 o h1

theorem insertById_mem {o x : PdfObj} :
    ∀ {l : List PdfObj}, o ∈ insertById x l → o = x ∨ o ∈ l := by
  intro l
  induction l with
  | nil =>
    intro h
    simpa [insertById] using h
  | cons y ys ih =>
    intro h
    rw [show insertById x (y :: ys) =
        (if x.id ≤ y.id then x :: y :: ys else y :: insertById x ys) from rfl] at h
    by_cases hc : x.id ≤ y.id
    · rw [if_pos hc] at h
      rcases List.mem_cons.mp h with h1 | h1
      · exact Or.inl h1
      · exact Or.inr h1
    · rw [if_neg hc] at h
      rcases List.mem_cons.mp h with h1 | h1
      · exact Or.inr (h1 ▸ List.mem_cons_self _ _)
      · rcases ih h1 with h2 | h2
        · exact Or.inl h2
        · exact Or.inr (List.mem_cons_of_mem _ h2)

theorem sortById_mem {o : PdfObj} :
    ∀ {l : List PdfObj}, o ∈ sortById l → o ∈ l := by
  intro l
  induction l with
  | nil => intro h; cases h
  | cons x xs ih =>
    intro h
    rcases insertById_mem h with h1 | h1
    · exact h1 ▸ List.mem_cons_self _ _
    · exact List.mem_cons_of_mem _ (ih h1)

theorem kidsRefs_ascii (pageObjects : List PdfObj) :
    allAscii (kidsRefsFor pageObjects) := by
  unfold kidsRefsFor
  refine allAscii_joinSep (by decide) ?_
  intro l hl
  rw [List.mem_map] at hl
  obtain ⟨o, _, ho⟩ := hl
  rw [← ho]
  exact allAscii_append (allAscii_natToChars _) (by decide)

theorem allObjectsFor_ascii (set : FlashcardSet) (now : List Char) :
    ∀ o ∈ allObjectsFor set now, allAscii o.content := by
  intro o ho
  unfold allObjectsFor at ho
  have hmk := mkObjs_ascii (pagesFor set now) 4 (4 + (pagesFor set now).length)
    (pagesFor_chars set now)
  have ho2 := sortById_mem ho
  rcases List.mem_append.mp ho2 with h1 | h1
  · rcases List.mem_append.mp h1 with h2 | h2
    · simp only [List.mem_cons, List.not_mem_nil, or_false] at h2
      rcases h2 with h | h | h
      · rw [h]
        decide
      · rw [h]
        show allAscii (s2l "<< /Type /Pages /Count " ++ natToChars _ ++
          s2l " /Kids [" ++ kidsRefsFor _ ++ s2l "] >>\n")
        refine allAscii_append (allAscii_append (allAscii_append (allAscii_append
          (by decide) (allAscii_natToChars _)) (by decide)) (kidsRefs_ascii _))
          (by decide)
      · rw [h]
        decide
    · exact hmk.1 o h2
  · exact hmk.2 o h1

theorem objBytes_ascii {o : PdfObj} (h : allAscii o.content) :
    allAscii (objBytes o) := by
  unfold objBytes
  exact allAscii_append (allAscii_append (allAscii_append
    (allAscii_natToChars _) (by decide)) h) (by decide)

theorem xrefEntries_ascii : ∀ (offs : List (Nat × Nat)), allAscii (xrefEntries offs) := by
  intro offs
  induction offs with
  | nil => intro c hc; cases hc
  | cons e rest ih =>
    show allAscii (padStart 10 '0' (natToChars e.2) ++ s2l " 00000 n \n" ++
      xrefEntries rest)
    exact allAscii_append (allAscii_append
      (allAscii_padStart (by decide) (allAscii_natToChars _)) (by decide)) ih

/-! ## Claim C1: exact byte offsets in the cross-reference table -/

set_option maxHeartbeats 2000000 in
/-- C1: for every non-empty flashcard set, the encoder succeeds, every offset
it records in the cross-reference table is the exact position in the final
output at which that object's `id 0 obj` header begins, the `startxref`
footer value (`xrefOffset`) is the exact position at which the `xref` section
begins, and every character of the output is in the single-byte ASCII range,
so the string positions used as offsets coincide with byte positions after
TextEncoder encoding. -/
theorem pdf_offsets_exact (set : FlashcardSet) (now : List Char)
    (hcards : set.cards ≠ []) :
    ∃ b, createFlashcardsPdfBlob true set now = some b ∧
      (∀ e ∈ b.offsets, List.IsPrefix (objHeader e.1) (b.pdf.drop e.2)) ∧
      List.IsPrefix (s2l "xref") (b.pdf.drop b.xrefOffset) ∧
      allAscii b.pdf := by
  have hemit : emittedFor set now =
      (s2l "%PDF-1.4\n" ++ concatAll ((allObjectsFor set now).map objBytes),
       offsAux (allObjectsFor set now) (s2l "%PDF-1.4\n").length) := by
    unfold emittedFor
    rw [emitObjects_spec]
    rw [List.nil_append]
  have hfst : (emittedFor set now).1 =
      s2l "%PDF-1.4\n" ++ concatAll ((allObjectsFor set now).map objBytes) := by
    rw [hemit]
  have hsnd : (emittedFor set now).2 =
      offsAux (allObjectsFor set now) (s2l "%PDF-1.4\n").length := by
    rw [hemit]
  refine ⟨pdfBuildOf set now, ?_, ?_, ?_, ?_⟩
  · unfold createFlashcardsPdfBlob
    rw [if_neg (by push_neg; exact ⟨by simp, hcards⟩)]
  · intro e he
    have hb : (pdfBuildOf set now).offsets = (emittedFor set now).2 := by
      unfold pdfBuildOf
      with_reducible rfl
    rw [hb, hsnd] at he
    have hbp : (pdfBuildOf set now).pdf = pdfTextFor set now := by
      unfold pdfBuildOf
      with_reducible rfl
    rw [hbp]
    have hdecomp : pdfTextFor set now =
        s2l "%PDF-1.4\n" ++ concatAll ((allObjectsFor set now).map objBytes) ++
          (s2l "xref\n0 " ++ (natToChars ((allObjectsFor set now).length + 1) ++
           (s2l "\n" ++ (s2l "0000000000 65535 f \n" ++
           (xrefEntries (emittedFor set now).2 ++ (s2l "trailer\n<< /Size " ++
           (natToChars ((allObjectsFor set now).length + 1) ++
           (s2l " /Root 1 0 R >>\nstartxref\n" ++
           (natToChars (xrefOffsetFor set now) ++ s2l "\n%%EOF"))))))))) := by
      unfold pdfTextFor
      rw [hfst]
      simp only [List.append_assoc]
    rw [hdecomp]
    exact offsAux_header (allObjectsFor set now) (s2l "%PDF-1.4\n") _ e he
  · have hbp : (pdfBuildOf set now).pdf = pdfTextFor set now := by
      unfold pdfBuildOf
      with_reducible rfl
    have hbo : (pdfBuildOf set now).xrefOffset = (emittedFor set now).1.length := by
      unfold pdfBuildOf xrefOffsetFor
      with_reducible rfl
    have hdecomp2 : pdfTextFor set now =
        (emittedFor set now).1 ++ (s2l "xref" ++ (s2l "\n0 " ++
          (natToChars ((allObjectsFor set now).length + 1) ++
          (s2l "\n" ++ (s2l "0000000000 65535 f \n" ++
          (xrefEntries (emittedFor set now).2 ++ (s2l "trailer\n<< /Size " ++
          (natToChars ((allObjectsFor set now).length + 1) ++
          (s2l " /Root 1 0 R >>\nstartxref\n" ++
          (natToChars (xrefOffsetFor set now) ++ s2l "\n%%EOF")))))))))) := by
      unfold pdfTextFor
      rw [show s2l "xref\n0 " = s2l "xref" ++ s2l "\n0 " from rfl]
      simp only [List.append_assoc]
    rw [hbp, hbo, hdecomp2, List.drop_left]
    exact List.prefix_append _ _
  · have hbp : (pdfBuildOf set now).pdf = pdfTextFor set now := by
      unfold pdfBuildOf
      with_reducible rfl
    rw [hbp]
    unfold pdfTextFor
    have h1 : allAscii (emittedFor set now).1 := by
      rw [hfst]
      refine allAscii_append (by decide) (allAscii_concatAll ?_)
      intro l hl
      rw [List.mem_map] at hl
      obtain ⟨o, ho, hoe⟩ := hl
      rw [← hoe]
      exact objBytes_ascii (allObjectsFor_ascii set now o ho)
    refine allAscii_append (allAscii_append (allAscii_append (allAscii_append
      (allAscii_append (allAscii_append (allAscii_append (allAscii_append
        (allAscii_append (allAscii_append h1 (by decide)) (allAscii_natToChars _))
        (by decide)) (by decide)) (xrefEntries_ascii _)) (by decide))
        (allAscii_natToChars _)) (by decide)) (allAscii_natToChars _)) (by decide)

/-- Witness for C1 at the spec's example deck. -/
theorem pdf_offsets_exact_witness :
    demoSet.cards ≠ [] ∧
    (∃ b, createFlashcardsPdfBlob true demoSet demoNow = some b ∧
      (∀ e ∈ b.offsets, List.IsPrefix (objHeader e.1) (b.pdf.drop e.2)) ∧
      List.IsPrefix (s2l "xref") (b.pdf.drop b.xrefOffset) ∧
      allAscii b.pdf) :=
  ⟨by decide, pdf_offsets_exact demoSet demoNow (by decide)⟩

/-! ## Lemmas: the preprocessing pipeline on marker-structured input -/

theorem normNewlines_id : ∀ (s : List Char), (∀ c ∈ s, c ≠ '\r') →
    normNewlines s = s := by
  intro s
  induction s with
  | nil => intro _; rfl
  | cons c rest ih =>
    intro h
    have hc : c ≠ '\r' := h c (List.mem_cons_self _ _)
    have ih2 := ih (fun x hx => h x (List.mem_cons_of_mem _ hx))
    rw [normNewlines.eq_def]
    split
    · rename_i heq
      cases heq
    · rename_i r heq
      rw [List.cons.injEq] at heq
      exact absurd heq.1 hc
    · rename_i r hne heq
      rw [List.cons.injEq] at heq
      exact absurd heq.1 hc
    · rename_i c2 r2 hne heq
      rw [List.cons.injEq] at heq
      rw [← heq.1, ← heq.2, ih2]

theorem tryOrdinal_none {c : Char} {rest : List Char} (h : okChar c = true) :
    tryOrdinal (c :: rest) = none := by
  have h1 : isWsChar c = false := by
    unfold okChar at h
    rw [Bool.and_eq_true] at h
    simpa using h.1
  have h2 : isDigit c = false := by
    unfold okChar at h
    rw [Bool.and_eq_true] at h
    simpa using h.2
  have hd : (c :: rest).dropWhile isWsChar = c :: rest := by
    rw [List.dropWhile_cons, h1]
    simp
  have ht : ((c :: rest).dropWhile isWsChar).takeWhile isDigit = [] := by
    rw [hd, List.takeWhile_cons, h2]
    simp
  unfold tryOrdinal
  rw [if_pos ht]

theorem stripGo_nil (fuel : Nat) (b : Bool) : stripGo fuel [] b = [] := by
  cases fuel <;> rfl

theorem stripGo_mid (f : Nat) (c : Char) (rest : List Char) :
    stripGo (f + 1) (c :: rest) false = c :: stripGo f rest (isLineTerm c) := rfl

theorem stripGo_start_none {f : Nat} {c : Char} {rest : List Char}
    (hno : tryOrdinal (c :: rest) = none) :
    stripGo (f + 1) (c :: rest) true = c :: stripGo f rest (isLineTerm c) := by
  show (match tryOrdinal (c :: rest) with
    | some (rem, nl) => stripGo f rem nl
    | none => c :: stripGo f rest (isLineTerm c)) =
      c :: stripGo f rest (isLineTerm c)
  rw [hno]

theorem lineStartsOk_cons (c : Char) (rest : List Char) (b : Bool) :
    lineStartsOk (c :: rest) b =
      ((if b then okChar c else true) && lineStartsOk rest (isLineTerm c)) := rfl

theorem okChar_not_term {c : Char} (h : okChar c = true) : isLineTerm c = false := by
  have hws : isWsChar c = false := by
    unfold okChar at h
    rw [Bool.and_eq_true] at h
    simpa using h.1
  cases hlt : isLineTerm c with
  | false => rfl
  | true =>
    exfalso
    have hn : ((c.toNat = 10 ∨ c.toNat = 13) ∨ c.toNat = 0x2028) ∨
        c.toNat = 0x2029 := by
      have h2 : (c.toNat = 10 || c.toNat = 13 || c.toNat = 0x2028 ||
          c.toNat = 0x2029) = true := hlt
      simpa using h2
    rw [or_assoc, or_assoc] at hn
    have hwt : isWsChar c = true := by
      rcases hn with h1 | h1 | h1 | h1 <;> simp [isWsChar, h1]
    rw [hwt] at hws
    cases hws

theorem stripGo_ok : ∀ (f : Nat) (s : List Char) (b : Bool), s.length ≤ f →
    lineStartsOk s b = true → stripGo f s b = s := by
  intro f
  induction f with
  | zero =>
    intro s b hlen _
    cases s with
    | nil => exact stripGo_nil 0 b
    | cons c rest => simp at hlen
  | succ f ih =>
    intro s b hlen hok
    cases s with
    | nil => exact stripGo_nil _ _
    | cons c rest =>
      rw [lineStartsOk_cons, Bool.and_eq_true] at hok
      have hlen2 : rest.length ≤ f := by
        simp only [List.length_cons] at hlen
        omega
      have hrest := ih rest _ hlen2 hok.2
      cases b with
      | false => rw [stripGo_mid, hrest]
      | true =>
        have hokc : okChar c = true := by simpa using hok.1
        rw [stripGo_start_none (tryOrdinal_none hokc), hrest]

theorem stripOrdinals_ok {s : List Char} (h : lineStartsOk s true = true) :
    stripOrdinals s = s :=
  stripGo_ok s.length s true (Nat.le_refl _) h

theorem lineStartsOk_append_noTerm : ∀ (L : List Char),
    (∀ c ∈ L, isLineTerm c = false) →
    ∀ (s : List Char), lineStartsOk (L ++ s) false = lineStartsOk s false := by
  intro L
  induction L with
  | nil => intro _ s; rfl
  | cons c t ih =>
    intro h s
    rw [List.cons_append, lineStartsOk_cons, h c (List.mem_cons_self _ _),
        ih (fun x hx => h x (List.mem_cons_of_mem _ hx)) s]
    simp

theorem lineStartsOk_line {c : Char} {L : List Char} (hc : okChar c = true)
    (hL : ∀ x ∈ L, isLineTerm x = false) (s : List Char)
    (hs : lineStartsOk s false = true) :
    lineStartsOk ((c :: L) ++ s) true = true := by
  rw [List.cons_append, lineStartsOk_cons, okChar_not_term hc,
      lineStartsOk_append_noTerm L hL s, hs]
  simp [hc]

theorem lineStartsOk_newline (s : List Char) :
    lineStartsOk ('\n' :: s) false = lineStartsOk s true := by
  rw [lineStartsOk_cons, show isLineTerm '\n' = true from rfl]
  simp

theorem mem_joinSep_elim {c : Char} {sep : List Char} :
    ∀ {Ls : List (List Char)}, c ∈ joinSep sep Ls →
      c ∈ sep ∨ ∃ L ∈ Ls, c ∈ L := by
  intro Ls
  induction Ls with
  | nil => intro h; cases h
  | cons x xs ih =>
    cases xs with
    | nil =>
      intro h
      exact Or.inr ⟨x, List.mem_cons_self _ _, h⟩
    | cons y ys =>
      intro h
      rw [joinSep_cons₂] at h
      rcases List.mem_append.mp h with h1 | h1
      · rcases List.mem_append.mp h1 with h2 | h2
        · exact Or.inr ⟨x, List.mem_cons_self _ _, h2⟩
        · exact Or.inl h2
      · rcases ih h1 with h2 | ⟨L, hL, hcL⟩
        · exact Or.inl h2
        · exact Or.inr ⟨L, List.mem_cons_of_mem _ hL, hcL⟩

theorem joinSep_cons_head {c : Char} {t : List Char} (rest : List (List Char)) :
    ∃ u, joinSep (s2l "\n") ((c :: t) :: rest) = c :: u := by
  cases rest with
  | nil => exact ⟨t, rfl⟩
  | cons y ys =>
    refine ⟨t ++ s2l "\n" ++ joinSep (s2l "\n") (y :: ys), ?_⟩
    rw [joinSep_cons₂]
    simp

theorem niceLine_shape {L : List Char} (h : niceLine L) :
    ∃ c t, L = c :: t ∧ isWsChar c = false ∧ ∀ x ∈ L, x ≠ '\n' := by
  obtain ⟨h1, h2⟩ := h
  cases L with
  | nil => cases h1
  | cons c t => exact ⟨c, t, rfl, h1, h2⟩

theorem split_trim_joinSep : ∀ (Ls : List (List Char)), Ls ≠ [] →
    (∀ L ∈ Ls, niceLine L) →
    (splitCh '\n' (trim (joinSep (s2l "\n") Ls))).map trim = Ls.map trim := by
  intro Ls
  induction Ls with
  | nil => intro h _; cases h rfl
  | cons L rest ih =>
    intro _ hall
    obtain ⟨c, t, hLt, hc, hnl⟩ := niceLine_shape (hall L (List.mem_cons_self _ _))
    subst hLt
    cases rest with
    | nil =>
      show (splitCh '\n' (trim (c :: t))).map trim = [trim (c :: t)]
      rw [trim_cons_not_ws hc]
      rw [splitCh_no_sep (fun x hx => hnl x (mem_trimRight hx))]
      simp only [List.map_cons, List.map_nil]
      rw [trim_trimRight, trim_cons_not_ws hc]
    | cons M rest2 =>
      obtain ⟨c2, t2, hM, hc2, hnl2⟩ :=
        niceLine_shape (hall M (List.mem_cons_of_mem _ (List.mem_cons_self _ _)))
      obtain ⟨u, hJ⟩ : ∃ u, joinSep (s2l "\n") (M :: rest2) = c2 :: u := by
        rw [hM]
        exact joinSep_cons_head rest2
      have hsep : joinSep (s2l "\n") ((c :: t) :: M :: rest2) =
          ((c :: t) ++ s2l "\n") ++ joinSep (s2l "\n") (M :: rest2) := by
        rw [joinSep_cons₂]
      have hex : ∃ ch ∈ joinSep (s2l "\n") (M :: rest2), isWsChar ch = false := by
        refine ⟨c2, ?_, hc2⟩
        rw [hJ]
        exact List.mem_cons_self _ _
      have htrim : trim (joinSep (s2l "\n") ((c :: t) :: M :: rest2)) =
          (c :: t) ++ '\n' :: trimRight (joinSep (s2l "\n") (M :: rest2)) := by
        rw [hsep]
        unfold trim
        rw [trimRight_append_right hex]
        rw [show ((c :: t ++ s2l "\n") ++
              trimRight (joinSep (s2l "\n") (M :: rest2)))
            = c :: (t ++ '\n' :: trimRight (joinSep (s2l "\n") (M :: rest2)))
          from by simp [s2l]]
        rw [trimLeft_cons_not_ws hc]
        simp
      have hTJ : trimRight (joinSep (s2l "\n") (M :: rest2)) =
          trim (joinSep (s2l "\n") (M :: rest2)) := by
        rw [hJ, trim_cons_not_ws hc2]
      rw [htrim, splitCh_append_sep hnl, hTJ]
      rw [List.map_cons, List.map_cons]
      rw [ih (by simp) (fun X hX => hall X (List.mem_cons_of_mem _ hX))]

theorem not_lineTerm_ne {c : Char} (h : isLineTerm c = false) :
    c ≠ '\n' ∧ c ≠ '\r' := by
  constructor <;> intro he <;> rw [he] at h <;> exact absurd h (by decide)

theorem trim_marker {k : Char} {body : List Char} (hk : isWsChar k = false)
    (hbody : trim body ≠ []) :
    trim (k :: ':' :: ' ' :: body) = k :: ':' :: ' ' :: trimRight body := by
  rw [trim_cons_not_ws hk]
  have hex : ∃ ch ∈ body, isWsChar ch = false := by
    by_contra hfa
    push_neg at hfa
    refine hbody (trim_eq_nil_iff.mpr (fun ch hch => ?_))
    have := hfa ch hch
    simpa using this
  have h2 : trimRight ([k, ':', ' '] ++ body) = [k, ':', ' '] ++ trimRight body :=
    trimRight_append_right hex
  simpa using h2

theorem questionMatch_marker {q : List Char} (hq : goodText q) :
    questionMatch (trim (s2l "Q: " ++ q)) = some (trim q) := by
  obtain ⟨hne, hterm⟩ := hq
  have hsh : s2l "Q: " ++ q = 'Q' :: ':' :: ' ' :: q := rfl
  rw [hsh, trim_marker (by decide) hne]
  have h1 : matchKeyword "Q" ('Q' :: ':' :: ' ' :: trimRight q) =
      some (' ' :: trimRight q) := rfl
  have h2 : capturePlus (' ' :: trimRight q) = some (trim q) := by
    unfold capturePlus
    rw [show (' ' :: trimRight q).dropWhile isWsChar = trim q from by
      rw [List.dropWhile_cons]
      simp only [show isWsChar ' ' = true from rfl, if_true]
      rfl]
    obtain ⟨ch, cs, hcc⟩ := List.exists_cons_of_ne_nil hne
    rw [hcc]
    have hall : (ch :: cs).all (fun x => !(isLineTerm x)) = true := by
      rw [List.all_eq_true]
      intro x hx
      simp [hterm x (mem_trim (hcc ▸ hx))]
    simp [hall, ← hcc]
    intro x hx
    exact hterm x (mem_trim hx)
  unfold questionMatch
  rw [h1]
  simp [h2]

theorem answerMatch_marker {a : List Char} (ha : goodText a) :
    answerMatch (trim (s2l "A: " ++ a)) = some (trim a) := by
  obtain ⟨hne, hterm⟩ := ha
  have hsh : s2l "A: " ++ a = 'A' :: ':' :: ' ' :: a := rfl
  rw [hsh, trim_marker (by decide) hne]
  have h1 : matchKeyword "A" ('A' :: ':' :: ' ' :: trimRight a) =
      some (' ' :: trimRight a) := rfl
  have h2 : captureStar (' ' :: trimRight a) = some (trim a) := by
    unfold captureStar
    rw [show (' ' :: trimRight a).dropWhile isWsChar = trim a from by
      rw [List.dropWhile_cons]
      simp only [show isWsChar ' ' = true from rfl, if_true]
      rfl]
    have hall : (trim a).all (fun x => !(isLineTerm x)) = true := by
      rw [List.all_eq_true]
      intro x hx
      simp [hterm x (mem_trim hx)]
    simp [hall]
  unfold answerMatch
  rw [h1]
  simp [h2]

theorem questionMatch_aline (rest : List Char) :
    questionMatch ('A' :: rest) = none := rfl

theorem stepLines_cons (l : List Char) (ls : List (List Char))
    (cq : Option (List Char)) (ca : List (List Char)) (b : Bool) :
    stepLines (l :: ls) cq ca b =
      match questionMatch (trim l) with
      | some qcap => commitCard cq ca ++ stepLines ls (some qcap) [] false
      | none =>
        match answerMatch (trim l) with
        | some acap =>
          if cq ≠ none ∧ cq ≠ some [] then stepLines ls cq [acap] true
          else if b then stepLines ls cq (ca ++ [trim l]) b
          else stepLines ls cq ca b
        | none =>
          if b then stepLines ls cq (ca ++ [trim l]) b
          else stepLines ls cq ca b := rfl

theorem commitCard_none (ca : List (List Char)) : commitCard none ca = [] := rfl

theorem commitCard_some_eq (q0 : List Char) (ca : List (List Char)) :
    commitCard (some q0) ca =
      if q0 = [] ∨ ca = [] then []
      else if trim q0 ≠ [] ∧ trim (joinSep (s2l "\n") ca) ≠ [] then
        [⟨trim q0, trim (joinSep (s2l "\n") ca)⟩]
      else [] := rfl

theorem blockLines_cons (p : ParsedFlashcard) (ps : List ParsedFlashcard) :
    blockLines (p :: ps) =
      (s2l "Q: " ++ p.question) :: (s2l "A: " ++ p.answer) :: blockLines ps := rfl

theorem blockLines_mem {ps : List ParsedFlashcard} {L : List Char}
    (hL : L ∈ blockLines ps) :
    ∃ p ∈ ps, L = s2l "Q: " ++ p.question ∨ L = s2l "A: " ++ p.answer := by
  unfold blockLines at hL
  obtain ⟨l, hl, hLl⟩ := mem_concatAll_exists hL
  obtain ⟨p, hp, hpl⟩ := List.mem_map.mp hl
  refine ⟨p, hp, ?_⟩
  rw [← hpl] at hLl
  simp only [List.mem_cons, List.not_mem_nil, or_false] at hLl
  exact hLl

theorem blockLines_nice {ps : List ParsedFlashcard}
    (h : ∀ p ∈ ps, goodText p.question ∧ goodText p.answer) :
    ∀ L ∈ blockLines ps, niceLine L := by
  intro L hL
  obtain ⟨p, hp, hcase⟩ := blockLines_mem hL
  obtain ⟨hq, ha⟩ := h p hp
  rcases hcase with hc | hc
  · constructor
    · rw [hc]
      show isWsChar 'Q' = false
      decide
    · intro x hx
      rw [hc] at hx
      rcases List.mem_cons.mp hx with h1 | hx
      · rw [h1]; decide
      rcases List.mem_cons.mp hx with h1 | hx
      · rw [h1]; decide
      rcases List.mem_cons.mp hx with h1 | hx
      · rw [h1]; decide
      · exact (not_lineTerm_ne (hq.2 x hx)).1
  · constructor
    · rw [hc]
      show isWsChar 'A' = false
      decide
    · intro x hx
      rw [hc] at hx
      rcases List.mem_cons.mp hx with h1 | hx
      · rw [h1]; decide
      rcases List.mem_cons.mp hx with h1 | hx
      · rw [h1]; decide
      rcases List.mem_cons.mp hx with h1 | hx
      · rw [h1]; decide
      · exact (not_lineTerm_ne (ha.2 x hx)).1

theorem mkRaw_eq_joinSep_blockLines : ∀ (ps : List ParsedFlashcard),
    mkRaw ps = joinSep (s2l "\n") (blockLines ps) := by
  intro ps
  induction ps with
  | nil => rfl
  | cons p rest ih =>
    cases rest with
    | nil =>
      show mkBlock p =
        joinSep (s2l "\n") [s2l "Q: " ++ p.question, s2l "A: " ++ p.answer]
      rw [joinSep_cons₂]
      unfold mkBlock
      simp [List.append_assoc]
      rfl
    | cons p2 rest2 =>
      show mkBlock p ++ s2l "\n" ++ mkRaw (p2 :: rest2) = _
      rw [blockLines_cons, blockLines_cons, joinSep_cons₂, joinSep_cons₂,
          ← blockLines_cons, ← ih]
      unfold mkBlock
      simp [List.append_assoc]

theorem mkRaw_no_cr {ps : List ParsedFlashcard}
    (h : ∀ p ∈ ps, goodText p.question ∧ goodText p.answer) :
    ∀ c ∈ mkRaw ps, c ≠ '\r' := by
  intro c hc
  rw [mkRaw_eq_joinSep_blockLines] at hc
  rcases mem_joinSep_elim hc with hsep | ⟨L, hL, hcL⟩
  · intro he
    rw [he] at hsep
    exact absurd hsep (by decide)
  · obtain ⟨p, hp, hcase⟩ := blockLines_mem hL
    obtain ⟨hq, ha⟩ := h p hp
    rcases hcase with hc2 | hc2 <;> rw [hc2] at hcL
    · rcases List.mem_cons.mp hcL with h1 | hx
      · rw [h1]; decide
      rcases List.mem_cons.mp hx with h1 | hx
      · rw [h1]; decide
      rcases List.mem_cons.mp hx with h1 | hx
      · rw [h1]; decide
      · exact (not_lineTerm_ne (hq.2 c hx)).2
    · rcases List.mem_cons.mp hcL with h1 | hx
      · rw [h1]; decide
      rcases List.mem_cons.mp hx with h1 | hx
      · rw [h1]; decide
      rcases List.mem_cons.mp hx with h1 | hx
      · rw [h1]; decide
      · exact (not_lineTerm_ne (ha.2 c hx)).2

theorem lineStartsOk_block (p : ParsedFlashcard) (s : List Char)
    (hq : goodText p.question) (ha : goodText p.answer)
    (hs : lineStartsOk s false = true) :
    lineStartsOk (mkBlock p ++ s) true = true := by
  have hbq : ∀ x ∈ p.question, isLineTerm x = false := hq.2
  have hba : ∀ x ∈ p.answer, isLineTerm x = false := ha.2
  have hshape : mkBlock p ++ s =
      ('Q' :: (':' :: ' ' :: p.question)) ++
        ('\n' :: (('A' :: (':' :: ' ' :: p.answer)) ++ s)) := by
    unfold mkBlock
    rw [show (s2l "Q: ") = ['Q', ':', ' '] from rfl,
        show (s2l "\n") = ['\n'] from rfl,
        show (s2l "A: ") = ['A', ':', ' '] from rfl]
    simp [List.append_assoc]
  rw [hshape]
  refine lineStartsOk_line (by decide) ?_ _ ?_
  · intro x hx
    rcases List.mem_cons.mp hx with h1 | hx
    · rw [h1]; decide
    rcases List.mem_cons.mp hx with h1 | hx
    · rw [h1]; decide
    · exact hbq x hx
  · rw [lineStartsOk_newline]
    refine lineStartsOk_line (by decide) ?_ _ hs
    · intro x hx
      rcases List.mem_cons.mp hx with h1 | hx
      · rw [h1]; decide
      rcases List.mem_cons.mp hx with h1 | hx
      · rw [h1]; decide
      · exact hba x hx

theorem mkRaw_lineStartsOk : ∀ (ps : List ParsedFlashcard),
    (∀ p ∈ ps, goodText p.question ∧ goodText p.answer) →
    lineStartsOk (mkRaw ps) true = true := by
  intro ps
  induction ps with
  | nil => intro _; rfl
  | cons p rest ih =>
    intro h
    obtain ⟨hq, ha⟩ := h p (List.mem_cons_self _ _)
    cases rest with
    | nil =>
      have hb := lineStartsOk_block p [] hq ha rfl
      simpa using hb
    | cons p2 rest2 =>
      have hsh : mkRaw (p :: p2 :: rest2) =
          mkBlock p ++ ('\n' :: mkRaw (p2 :: rest2)) := by
        show mkBlock p ++ s2l "\n" ++ mkRaw (p2 :: rest2) = _
        rw [show (s2l "\n") = ['\n'] from rfl]
        simp
      rw [hsh]
      refine lineStartsOk_block p _ hq ha ?_
      rw [lineStartsOk_newline]
      exact ih (fun x hx => h x (List.mem_cons_of_mem _ hx))

theorem stepLines_congr : ∀ (Ls1 Ls2 : List (List Char)),
    Ls1.map trim = Ls2.map trim →
    ∀ (cq : Option (List Char)) (ca : List (List Char)) (b : Bool),
      stepLines Ls1 cq ca b = stepLines Ls2 cq ca b := by
  intro Ls1
  induction Ls1 with
  | nil =>
    intro Ls2 h cq ca b
    cases Ls2 with
    | nil => rfl
    | cons m ms => cases h
  | cons l ls ih =>
    intro Ls2 h cq ca b
    cases Ls2 with
    | nil => cases h
    | cons m ms =>
      rw [List.map_cons, List.map_cons, List.cons.injEq] at h
      obtain ⟨hlm, htail⟩ := h
      rw [stepLines_cons, stepLines_cons, hlm]
      cases hqm : questionMatch (trim m) with
      | some qcap =>
        simp only [hqm]
        rw [ih ms htail]
      | none =>
        simp only [hqm]
        cases ham : answerMatch (trim m) with
        | some acap =>
          simp only [ham]
          by_cases hcq : cq ≠ none ∧ cq ≠ some []
          · rw [if_pos hcq, if_pos hcq, ih ms htail]
          · rw [if_neg hcq, if_neg hcq]
            cases b with
            | true => rw [if_pos rfl, if_pos rfl, ih ms htail]
            | false => rw [if_neg (by simp), if_neg (by simp), ih ms htail]
        | none =>
          simp only [ham]
          cases b with
          | true => rw [if_pos rfl, if_pos rfl, ih ms htail]
          | false => rw [if_neg (by simp), if_neg (by simp), ih ms htail]

theorem stepLines_blocks : ∀ (ps : List ParsedFlashcard),
    (∀ p ∈ ps, goodText p.question ∧ goodText p.answer) →
    ∀ (cq : Option (List Char)) (ca : List (List Char)) (b : Bool),
      stepLines (blockLines ps) cq ca b = commitCard cq ca ++ ps.map trimPair := by
  intro ps
  induction ps with
  | nil =>
    intro _ cq ca b
    show stepLines [] cq ca b = commitCard cq ca ++ []
    rw [List.append_nil]
    rfl
  | cons p rest ih =>
    intro hgood cq ca b
    obtain ⟨hq, ha⟩ := hgood p (List.mem_cons_self _ _)
    have hrest := ih (fun x hx => hgood x (List.mem_cons_of_mem _ hx))
    rw [blockLines_cons, stepLines_cons]
    simp only [questionMatch_marker hq]
    rw [stepLines_cons]
    have hqa : questionMatch (trim (s2l "A: " ++ p.answer)) = none := by
      rw [show s2l "A: " ++ p.answer = 'A' :: ':' :: ' ' :: p.answer from rfl,
          trim_marker (by decide) ha.1]
      exact questionMatch_aline _
    simp only [hqa, answerMatch_marker ha]
    rw [if_pos ⟨by simp, by simp [hq.1]⟩]
    rw [hrest (some (trim p.question)) [trim p.answer] true]
    rw [commitCard_some_eq]
    rw [if_neg (by push_neg; exact ⟨hq.1, by simp⟩)]
    rw [if_pos ⟨by rw [trim_idem]; exact hq.1,
        by show trim (trim p.answer) ≠ []; rw [trim_idem]; exact ha.1⟩]
    rw [List.map_cons]
    rw [show trimPair p = ⟨trim p.question, trim p.answer⟩ from rfl]
    rw [trim_idem]
    rw [show trim (joinSep (s2l "\n") [trim p.answer]) = trim (trim p.answer) from rfl,
        trim_idem]
    simp

/-! ## Claim C3: round-trip parse of well-formed Q/A blocks -/

/-- C3: for an input text formed by concatenating well-formed `Q: ...` /
`A: ...` blocks whose contents are single-line, non-blank after trimming,
and pairwise distinct, `parseFlashcards` returns exactly one record per
block, in input order, whose question and answer equal the corresponding
block contents after trimming. -/
theorem parse_roundtrip (ps : List ParsedFlashcard)
    (hgood : ∀ p ∈ ps, goodText p.question ∧ goodText p.answer)
    (hdist : (ps.map trimPair).Nodup) :
    parseFlashcards (mkRaw ps) = ps.map trimPair := by
  cases ps with
  | nil => rfl
  | cons p rest =>
    have hne : mkRaw (p :: rest) ≠ [] := by
      rw [mkRaw_eq_joinSep_blockLines, blockLines_cons,
          show s2l "Q: " ++ p.question = 'Q' :: (':' :: ' ' :: p.question)
            from rfl]
      obtain ⟨u, hu⟩ := joinSep_cons_head
        ((s2l "A: " ++ p.answer) :: blockLines rest)
      rw [hu]
      simp
    unfold parseFlashcards
    rw [if_neg hne]
    show stepLines (splitCh '\n'
        (trim (stripOrdinals (normNewlines (mkRaw (p :: rest)))))) none [] false =
      (p :: rest).map trimPair
    rw [normNewlines_id _ (mkRaw_no_cr hgood)]
    rw [stripOrdinals_ok (mkRaw_lineStartsOk _ hgood)]
    rw [stepLines_congr (splitCh '\n' (trim (mkRaw (p :: rest))))
        (blockLines (p :: rest))
        (by rw [mkRaw_eq_joinSep_blockLines]
            exact split_trim_joinSep _ (by rw [blockLines_cons]; simp)
              (blockLines_nice hgood))
        none [] false]
    rw [stepLines_blocks _ hgood none [] false]
    rw [commitCard_none, List.nil_append]

/-- Witness for C3 at the spec's example records. -/
theorem parse_roundtrip_witness :
    (∀ p ∈ ([⟨s2l "What is 2+2?", s2l "4"⟩,
        ⟨s2l "Capital of France?", s2l "Paris"⟩] : List ParsedFlashcard),
      goodText p.question ∧ goodText p.answer) ∧
    (([⟨s2l "What is 2+2?", s2l "4"⟩,
        ⟨s2l "Capital of France?", s2l "Paris"⟩] : List ParsedFlashcard).map
          trimPair).Nodup ∧
    parseFlashcards (mkRaw ([⟨s2l "What is 2+2?", s2l "4"⟩,
        ⟨s2l "Capital of France?", s2l "Paris"⟩] : List ParsedFlashcard)) =
      ([⟨s2l "What is 2+2?", s2l "4"⟩,
        ⟨s2l "Capital of France?", s2l "Paris"⟩] : List ParsedFlashcard).map
          trimPair :=
  ⟨by decide, by decide, parse_roundtrip _ (by decide) (by decide)⟩

/-! ## Claim C9: multi-line answers and dangling questions -/

theorem joinSep_single (sep x : List Char) : joinSep sep [x] = x := rfl

theorem niceLine_marker {k : Char} {body : List Char} (hk : isWsChar k = false)
    (hterm : ∀ x ∈ body, isLineTerm x = false) :
    niceLine (k :: ':' :: ' ' :: body) := by
  constructor
  · exact hk
  · intro x hx
    rcases List.mem_cons.mp hx with hx1 | hx
    · rw [hx1]
      intro he
      rw [he] at hk
      exact absurd hk (by decide)
    rcases List.mem_cons.mp hx with hx1 | hx
    · rw [hx1]; decide
    rcases List.mem_cons.mp hx with hx1 | hx
    · rw [hx1]; decide
    · exact (not_lineTerm_ne (hterm x hx)).1

theorem niceLine_qline {q : List Char} (hq : goodText q) :
    niceLine (s2l "Q: " ++ q) := by
  rw [show s2l "Q: " ++ q = 'Q' :: ':' :: ' ' :: q from rfl]
  exact niceLine_marker (by decide) hq.2

theorem niceLine_aline {a : List Char} (ha : goodText a) :
    niceLine (s2l "A: " ++ a) := by
  rw [show s2l "A: " ++ a = 'A' :: ':' :: ' ' :: a from rfl]
  exact niceLine_marker (by decide) ha.2

theorem contLine_shape {c : List Char} (h : contLine c) :
    ∃ ch t, c = ch :: t ∧ isWsChar ch = false ∧ isDigit ch = false ∧
      ∀ x ∈ c, isLineTerm x = false := by
  obtain ⟨hne, hhead, hchars, hqm, ham⟩ := h
  cases c with
  | nil => cases hne rfl
  | cons ch t =>
    have hh := hhead ch (by simp)
    exact ⟨ch, t, rfl, hh.1, hh.2, hchars⟩

theorem niceLine_cont {c : List Char} (h : contLine c) : niceLine c := by
  obtain ⟨ch, t, hc, hws, hdg, hchars⟩ := contLine_shape h
  subst hc
  exact ⟨hws, fun x hx => (not_lineTerm_ne (hchars x hx)).1⟩

theorem marker_no_term {k : Char} {body : List Char}
    (hk : isLineTerm k = false)
    (hterm : ∀ x ∈ body, isLineTerm x = false) :
    ∀ x ∈ k :: ':' :: ' ' :: body, isLineTerm x = false := by
  intro x hx
  rcases List.mem_cons.mp hx with hx1 | hx
  · rw [hx1]; exact hk
  rcases List.mem_cons.mp hx with hx1 | hx
  · rw [hx1]; decide
  rcases List.mem_cons.mp hx with hx1 | hx
  · rw [hx1]; decide
  · exact hterm x hx

theorem joinSep_no_cr {Ls : List (List Char)}
    (h : ∀ L ∈ Ls, ∀ x ∈ L, x ≠ '\r') :
    ∀ c ∈ joinSep (s2l "\n") Ls, c ≠ '\r' := by
  intro c hc
  rcases mem_joinSep_elim hc with hsep | ⟨L, hL, hcL⟩
  · intro he
    rw [he] at hsep
    exact absurd hsep (by decide)
  · exact h L hL c hcL

theorem lineStartsOk_joinSep : ∀ (Ls : List (List Char)), Ls ≠ [] →
    (∀ L ∈ Ls, ∃ ch t, L = ch :: t ∧ okChar ch = true ∧
      ∀ x ∈ L, isLineTerm x = false) →
    lineStartsOk (joinSep (s2l "\n") Ls) true = true := by
  intro Ls
  induction Ls with
  | nil => intro h _; cases h rfl
  | cons L rest ih =>
    intro _ hall
    obtain ⟨ch, t, hL, hok, hnl⟩ := hall L (List.mem_cons_self _ _)
    subst hL
    cases rest with
    | nil =>
      rw [joinSep_single]
      have hres := lineStartsOk_line hok
        (fun x hx => hnl x (List.mem_cons_of_mem _ hx)) [] rfl
      simpa using hres
    | cons M rest2 =>
      rw [joinSep_cons₂, List.append_assoc]
      refine lineStartsOk_line hok
        (fun x hx => hnl x (List.mem_cons_of_mem _ hx)) _ ?_
      show lineStartsOk ('\n' :: joinSep (s2l "\n") (M :: rest2)) false = true
      rw [lineStartsOk_newline]
      exact ih (by simp) (fun X hX => hall X (List.mem_cons_of_mem _ hX))

set_option maxHeartbeats 1000000 in
/-- C9: in an input where an `A:` line is followed by two plain continuation
lines before the end of input, the tokenizer produces one record whose answer
is the captured `A:` text and the two trimmed continuation lines joined by
line breaks, the whole trimmed; appending a trailing `Q:` line with no
following `A:` line yields no additional record. -/
theorem multiline_answer_dangling_question (q a c1 c2 q2 : List Char)
    (hq : goodText q) (ha : goodText a) (h1 : contLine c1) (h2 : contLine c2)
    (hq2 : goodText q2) :
    parseFlashcards (joinSep (s2l "\n")
        [s2l "Q: " ++ q, s2l "A: " ++ a, c1, c2]) =
      [⟨trim q, trim (joinSep (s2l "\n") [trim a, trim c1, trim c2])⟩] ∧
    parseFlashcards (joinSep (s2l "\n")
        [s2l "Q: " ++ q, s2l "A: " ++ a, c1, c2, s2l "Q: " ++ q2]) =
      [⟨trim q, trim (joinSep (s2l "\n") [trim a, trim c1, trim c2])⟩] := by
  obtain ⟨ch1, t1, hc1, hws1, hdg1, hcr1⟩ := contLine_shape h1
  obtain ⟨ch2, t2, hc2s, hws2, hdg2, hcr2⟩ := contLine_shape h2
  have hok1 : okChar ch1 = true := by
    unfold okChar
    simp [hws1, hdg1]
  have hok2 : okChar ch2 = true := by
    unfold okChar
    simp [hws2, hdg2]
  have hQsh : s2l "Q: " ++ q = 'Q' :: ':' :: ' ' :: q := rfl
  have hAsh : s2l "A: " ++ a = 'A' :: ':' :: ' ' :: a := rfl
  have hQ2sh : s2l "Q: " ++ q2 = 'Q' :: ':' :: ' ' :: q2 := rfl
  have hmem1 : ∀ L ∈ [s2l "Q: " ++ q, s2l "A: " ++ a, c1, c2],
      ∃ ch t, L = ch :: t ∧ okChar ch = true ∧
        ∀ x ∈ L, isLineTerm x = false := by
    intro L hL
    simp only [List.mem_cons, List.not_mem_nil, or_false] at hL
    rcases hL with hx | hx | hx | hx <;> subst hx
    · exact ⟨'Q', ':' :: ' ' :: q, hQsh, by decide,
        fun x hx2 => marker_no_term (by decide) hq.2 x (hQsh ▸ hx2)⟩
    · exact ⟨'A', ':' :: ' ' :: a, hAsh, by decide,
        fun x hx2 => marker_no_term (by decide) ha.2 x (hAsh ▸ hx2)⟩
    · exact ⟨ch1, t1, hc1, hok1, hcr1⟩
    · exact ⟨ch2, t2, hc2s, hok2, hcr2⟩
  have hmem2 : ∀ L ∈ [s2l "Q: " ++ q, s2l "A: " ++ a, c1, c2, s2l "Q: " ++ q2],
      ∃ ch t, L = ch :: t ∧ okChar ch = true ∧
        ∀ x ∈ L, isLineTerm x = false := by
    intro L hL
    simp only [List.mem_cons, List.not_mem_nil, or_false] at hL
    rcases hL with hx | hx | hx | hx | hx <;> subst hx
    · exact ⟨'Q', ':' :: ' ' :: q, hQsh, by decide,
        fun x hx2 => marker_no_term (by decide) hq.2 x (hQsh ▸ hx2)⟩
    · exact ⟨'A', ':' :: ' ' :: a, hAsh, by decide,
        fun x hx2 => marker_no_term (by decide) ha.2 x (hAsh ▸ hx2)⟩
    · exact ⟨ch1, t1, hc1, hok1, hcr1⟩
    · exact ⟨ch2, t2, hc2s, hok2, hcr2⟩
    · exact ⟨'Q', ':' :: ' ' :: q2, hQ2sh, by decide,
        fun x hx2 => marker_no_term (by decide) hq2.2 x (hQ2sh ▸ hx2)⟩
  have hnocr1 : ∀ L ∈ [s2l "Q: " ++ q, s2l "A: " ++ a, c1, c2],
      ∀ x ∈ L, x ≠ '\r' := by
    intro L hL
    simp only [List.mem_cons, List.not_mem_nil, or_false] at hL
    rcases hL with hx | hx | hx | hx <;> subst hx
    · exact fun x hx2 =>
        (not_lineTerm_ne (marker_no_term (by decide) hq.2 x (hQsh ▸ hx2))).2
    · exact fun x hx2 =>
        (not_lineTerm_ne (marker_no_term (by decide) ha.2 x (hAsh ▸ hx2))).2
    · exact fun x hx2 => (not_lineTerm_ne (hcr1 x hx2)).2
    · exact fun x hx2 => (not_lineTerm_ne (hcr2 x hx2)).2
  have hnocr2 : ∀ L ∈ [s2l "Q: " ++ q, s2l "A: " ++ a, c1, c2, s2l "Q: " ++ q2],
      ∀ x ∈ L, x ≠ '\r' := by
    intro L hL
    simp only [List.mem_cons, List.not_mem_nil, or_false] at hL
    rcases hL with hx | hx | hx | hx | hx <;> subst hx
    · exact fun x hx2 =>
        (not_lineTerm_ne (marker_no_term (by decide) hq.2 x (hQsh ▸ hx2))).2
    · exact fun x hx2 =>
        (not_lineTerm_ne (marker_no_term (by decide) ha.2 x (hAsh ▸ hx2))).2
    · exact fun x hx2 => (not_lineTerm_ne (hcr1 x hx2)).2
    · exact fun x hx2 => (not_lineTerm_ne (hcr2 x hx2)).2
    · exact fun x hx2 =>
        (not_lineTerm_ne (marker_no_term (by decide) hq2.2 x (hQ2sh ▸ hx2))).2
  have hnice1 : ∀ L ∈ [s2l "Q: " ++ q, s2l "A: " ++ a, c1, c2], niceLine L := by
    intro L hL
    simp only [List.mem_cons, List.not_mem_nil, or_false] at hL
    rcases hL with hx | hx | hx | hx <;> subst hx
    · exact niceLine_qline hq
    · exact niceLine_aline ha
    · exact niceLine_cont h1
    · exact niceLine_cont h2
  have hnice2 : ∀ L ∈ [s2l "Q: " ++ q, s2l "A: " ++ a, c1, c2, s2l "Q: " ++ q2],
      niceLine L := by
    intro L hL
    simp only [List.mem_cons, List.not_mem_nil, or_false] at hL
    rcases hL with hx | hx | hx | hx | hx <;> subst hx
    · exact niceLine_qline hq
    · exact niceLine_aline ha
    · exact niceLine_cont h1
    · exact niceLine_cont h2
    · exact niceLine_qline hq2
  have hne1 : joinSep (s2l "\n") [s2l "Q: " ++ q, s2l "A: " ++ a, c1, c2] ≠ [] := by
    rw [hQsh]
    obtain ⟨u, hu⟩ := joinSep_cons_head [s2l "A: " ++ a, c1, c2]
    rw [hu]
    simp
  have hne2 : joinSep (s2l "\n")
      [s2l "Q: " ++ q, s2l "A: " ++ a, c1, c2, s2l "Q: " ++ q2] ≠ [] := by
    rw [hQsh]
    obtain ⟨u, hu⟩ := joinSep_cons_head [s2l "A: " ++ a, c1, c2, s2l "Q: " ++ q2]
    rw [hu]
    simp
  have hansne : trim (joinSep (s2l "\n") [trim a, trim c1, trim c2]) ≠ [] := by
    intro h0
    have hall := trim_eq_nil_iff.mp h0
    have hne3 : trim (trim a) ≠ [] := by
      rw [trim_idem]
      exact ha.1
    have hnws : ¬ ∀ ch ∈ trim a, isWsChar ch := fun hfa =>
      hne3 (trim_eq_nil_iff.mpr hfa)
    push_neg at hnws
    obtain ⟨ch, hch, hws⟩ := hnws
    exact hws (hall ch (mem_joinSep (List.mem_cons_self _ _) hch))
  have hqa : questionMatch (trim (s2l "A: " ++ a)) = none := by
    rw [hAsh, trim_marker (by decide) ha.1]
    exact questionMatch_aline _
  have hcommit : commitCard (some (trim q)) [trim a, trim c1, trim c2] =
      [⟨trim q, trim (joinSep (s2l "\n") [trim a, trim c1, trim c2])⟩] := by
    rw [commitCard_some_eq]
    rw [if_neg (by push_neg; exact ⟨hq.1, by simp⟩)]
    rw [if_pos ⟨by rw [trim_idem]; exact hq.1, hansne⟩]
    rw [trim_idem]
  have hstep1 : stepLines [s2l "Q: " ++ q, s2l "A: " ++ a, c1, c2]
      none [] false =
      [⟨trim q, trim (joinSep (s2l "\n") [trim a, trim c1, trim c2])⟩] := by
    rw [stepLines_cons]
    simp only [questionMatch_marker hq]
    rw [commitCard_none, List.nil_append]
    rw [stepLines_cons]
    simp only [hqa, answerMatch_marker ha]
    rw [if_pos ⟨by simp, by simp [hq.1]⟩]
    rw [stepLines_cons]
    simp only [h1.2.2.2.1, h1.2.2.2.2]
    rw [if_pos trivial]
    rw [stepLines_cons]
    simp only [h2.2.2.2.1, h2.2.2.2.2]
    rw [if_pos trivial]
    show commitCard (some (trim q)) (([trim a] ++ [trim c1]) ++ [trim c2]) = _
    rw [show ([trim a] ++ [trim c1]) ++ [trim c2] = [trim a, trim c1, trim c2]
      from by simp]
    exact hcommit
  have hstep2 : stepLines
      [s2l "Q: " ++ q, s2l "A: " ++ a, c1, c2, s2l "Q: " ++ q2] none [] false =
      [⟨trim q, trim (joinSep (s2l "\n") [trim a, trim c1, trim c2])⟩] := by
    rw [stepLines_cons]
    simp only [questionMatch_marker hq]
    rw [commitCard_none, List.nil_append]
    rw [stepLines_cons]
    simp only [hqa, answerMatch_marker ha]
    rw [if_pos ⟨by simp, by simp [hq.1]⟩]
    rw [stepLines_cons]
    simp only [h1.2.2.2.1, h1.2.2.2.2]
    rw [if_pos trivial]
    rw [stepLines_cons]
    simp only [h2.2.2.2.1, h2.2.2.2.2]
    rw [if_pos trivial]
    rw [stepLines_cons]
    simp only [questionMatch_marker hq2]
    show commitCard (some (trim q)) (([trim a] ++ [trim c1]) ++ [trim c2]) ++
        stepLines [] (some (trim q2)) [] false = _
    rw [show stepLines [] (some (trim q2)) [] false =
        commitCard (some (trim q2)) [] from rfl]
    rw [show commitCard (some (trim q2)) [] = [] from by
      rw [commitCard_some_eq, if_pos (Or.inr rfl)]]
    rw [List.append_nil]
    rw [show ([trim a] ++ [trim c1]) ++ [trim c2] = [trim a, trim c1, trim c2]
      from by simp]
    exact hcommit
  constructor
  · unfold parseFlashcards
    rw [if_neg hne1]
    show stepLines (splitCh '\n' (trim (stripOrdinals (normNewlines
        (joinSep (s2l "\n") [s2l "Q: " ++ q, s2l "A: " ++ a, c1, c2])))))
      none [] false = _
    rw [normNewlines_id _ (joinSep_no_cr hnocr1)]
    rw [stripOrdinals_ok (lineStartsOk_joinSep _ (by simp) hmem1)]
    rw [stepLines_congr _ [s2l "Q: " ++ q, s2l "A: " ++ a, c1, c2]
        (split_trim_joinSep _ (by simp) hnice1) none [] false]
    exact hstep1
  · unfold parseFlashcards
    rw [if_neg hne2]
    show stepLines (splitCh '\n' (trim (stripOrdinals (normNewlines
        (joinSep (s2l "\n")
          [s2l "Q: " ++ q, s2l "A: " ++ a, c1, c2, s2l "Q: " ++ q2])))))
      none [] false = _
    rw [normNewlines_id _ (joinSep_no_cr hnocr2)]
    rw [stripOrdinals_ok (lineStartsOk_joinSep _ (by simp) hmem2)]
    rw [stepLines_congr _
        [s2l "Q: " ++ q, s2l "A: " ++ a, c1, c2, s2l "Q: " ++ q2]
        (split_trim_joinSep _ (by simp) hnice2) none [] false]
    exact hstep2

/-- Witness for C9 at concrete lines. -/
theorem multiline_answer_dangling_question_witness :
    (goodText (s2l "Largest ocean?") ∧ goodText (s2l "Pacific") ∧
      contLine (s2l "it spans a third") ∧ contLine (s2l "of the globe") ∧
      goodText (s2l "Dangling")) ∧
    parseFlashcards (joinSep (s2l "\n")
        [s2l "Q: " ++ s2l "Largest ocean?", s2l "A: " ++ s2l "Pacific",
         s2l "it spans a third", s2l "of the globe"]) =
      [⟨trim (s2l "Largest ocean?"),
        trim (joinSep (s2l "\n") [trim (s2l "Pacific"),
          trim (s2l "it spans a third"), trim (s2l "of the globe")])⟩] ∧
    parseFlashcards (joinSep (s2l "\n")
        [s2l "Q: " ++ s2l "Largest ocean?", s2l "A: " ++ s2l "Pacific",
         s2l "it spans a third", s2l "of the globe",
         s2l "Q: " ++ s2l "Dangling"]) =
      [⟨trim (s2l "Largest ocean?"),
        trim (joinSep (s2l "\n") [trim (s2l "Pacific"),
          trim (s2l "it spans a third"), trim (s2l "of the globe")])⟩] :=
  ⟨by decide,
   (multiline_answer_dangling_question (s2l "Largest ocean?") (s2l "Pacific")
     (s2l "it spans a third") (s2l "of the globe") (s2l "Dangling")
     (by decide) (by decide) (by decide) (by decide) (by decide)).1,
   (multiline_answer_dangling_question (s2l "Largest ocean?") (s2l "Pacific")
     (s2l "it spans a third") (s2l "of the globe") (s2l "Dangling")
     (by decide) (by decide) (by decide) (by decide) (by decide)).2⟩

end FlashcardApp
